import Mathlib

/-!
# Verification of the DRAGONS `astrodata.fits` container model

Shallow embedding of `src/astrodata/fits.py`: header collections, extension
sort keys, provider crop, proxy slicing, the chunked (windowed) operator
executor, the WCS codec, the reader (`read_fits` / `_prepare_hdulist`) and the
writer (`write_fits`).  Headers are modelled as association lists from
keyword to integer values, FITS arrays as lists (or index functions) of
integers, and strings as lists of characters so that the lexicographic
comparisons used by the extension sort can be reasoned about directly.
-/

namespace AstrodataFits

/-- Strings as character lists: Python compares strings lexicographically by
code point, which we mirror with an explicit boolean comparison. -/
abbrev Str := List Char

/-- Lexicographic strict order on character lists, as Python's `<` on `str`. -/
def strLt : Str → Str → Bool
  | [], [] => false
  | [], _ :: _ => true
  | _ :: _, [] => false
  | a :: as, b :: bs => a < b || (a = b && strLt as bs)

/-! ## Header collections (`FitsHeaderCollection`, fits.py lines 53-156)

A FITS header is modelled as an association list keyword ↦ value; a keyword
occurs at most once in real headers, and `del header[key]` removes the first
card with that keyword, which we mirror with `List.eraseP`. -/

/-- One per-extension metadata record (a PyFITS `Header`): keyword/value
pairs in card order. -/
abbrev Header := List (Str × Int)

/-- `header[key]`: the value of the first card with the given keyword, or
`none` (Python raises `KeyError`). -/
def hdrGet (h : Header) (key : Str) : Option Int :=
  (h.find? (fun c => c.1 = key)).map (·.2)

/-- `del header[key]`: removes the first card with the keyword; `none` when
the keyword is absent (Python raises `KeyError`). -/
def hdrDel (h : Header) (key : Str) : Option Header :=
  if (h.find? (fun c => c.1 = key)).isSome then
    some (h.eraseP (fun c => c.1 = key))
  else none

/-- The error object raised by `FitsHeaderCollection.__getitem__`: a
`KeyError` carrying `missing_at` (indices of headers lacking the key) and
`values` (the partial per-header result list, `None` at missing spots). -/
structure MissingKeyError where
  missing_at : List Nat
  values : List (Option Int)
  deriving Repr, DecidableEq

/-- The `missing_at` list accumulated by `FitsHeaderCollection.__getitem__`:
indices of the headers that lack the keyword, in header order. -/
def fhcMissing (headers : List Header) (key : Str) : List Nat :=
  (List.range headers.length).filter
    (fun n => (headers.get? n).bind (fun h => hdrGet h key) = none)

/-- `FitsHeaderCollection.__getitem__` (fits.py lines 97-114): collect the
per-header values; if any header lacks the key, raise a `KeyError` that
carries the missing indices and the partial result list. -/
def fhcGetItem (headers : List Header) (key : Str) :
    Except MissingKeyError (List (Option Int)) :=
  if (fhcMissing headers key).isEmpty then
    Except.ok (headers.map (fun h => hdrGet h key))
  else Except.error ⟨fhcMissing headers key, headers.map (fun h => hdrGet h key)⟩

/-- `FitsHeaderCollection.get` (fits.py lines 116-123): like `__getitem__`
but on a `KeyError` substitutes `default` at exactly the missing indices and
returns the patched list. -/
def fhcGet (headers : List Header) (key : Str) (default : Option Int) :
    List (Option Int) :=
  match fhcGetItem headers key with
  | Except.ok vals => vals
  | Except.error err =>
      err.missing_at.foldl (fun vals n => vals.set n default) err.values

/-- `FitsHeaderCollection.remove` (fits.py lines 128-137): delete the key
from every header that has it, counting deletions; raise a `KeyError`
(modelled as `none`) when no header had it. -/
def fhcRemove (headers : List Header) (key : Str) : Option (List Header) :=
  if ((headers.map (fun h => hdrDel h key)).filter Option.isSome).length = 0 then
    none
  else
    some (List.zipWith (fun r h => r.getD h)
      (headers.map (fun h => hdrDel h key)) headers)

/-! ## Raw extensions and the sort key (`fits_ext_comp_key`, lines 521-556)

A raw HDU is modelled by its class (`PrimaryHDU`, `ImageHDU`, table HDU),
its `EXTNAME`/`EXTVER` header cards, and its data payload. -/

inductive HDUKind
  | primary
  | image
  | table
  deriving Repr, DecidableEq, Inhabited

structure HDUm where
  kind : HDUKind
  extname : Option Str
  extver : Option Int
  data : Option (List Int)
  deriving Repr, DecidableEq, Inhabited

/-- The container-wide default role name, `DEFAULT_EXTENSION = 'SCI'`. -/
def SCI : Str := ['S', 'C', 'I']

/-- `fits_ext_comp_key` (fits.py lines 521-556): the `(integer, string)`
pair used to sort extensions; the primary HDU maps to `(-1, "")`, others to
`(version, adjusted name)` with the `z`-prefix adjustment and the
`2**32-1` sentinel for missing or `-1` versions. -/
def zAdjName : Option Str → Str
  | none => ['z', 'z', 'z', 'z']
  | some n => if n = SCI then n else 'z' :: n

def verKey : Option Int → Int
  | none => (2 : Int) ^ 32 - 1
  | some v => if v = -1 then (2 : Int) ^ 32 - 1 else v

def fits_ext_comp_key (ext : HDUm) : Int × Str :=
  if ext.kind = HDUKind.primary then (-1, [])
  else (verKey ext.extver, zAdjName ext.extname)

/-- Python's lexicographic comparison of the `(int, str)` key pairs, as used
by `sorted(..., key=fits_ext_comp_key)`. -/
def keyLt (a b : Int × Str) : Bool :=
  a.1 < b.1 || (a.1 = b.1 && strLt a.2 b.2)

/-- The data model's domain for `EXTVER` values: a positive integer below
the `2**32-1` sentinel, or the "absent" markers `-1` / missing. -/
def extverOK (e : HDUm) : Prop :=
  match e.extver with
  | none => True
  | some v => v = -1 ∨ (1 ≤ v ∧ v < 2 ^ 32 - 1)

/-! ## Cropping (`FitsProvider._crop_nd` / `_crop_impl`, lines 494-518)

2-D arrays are lists of rows; `a[y1:y2+1, x1:x2+1]` is drop/take on rows
and columns, exactly Python's clamping slice semantics for non-negative
bounds.  A unit's `meta['other']` holds three kinds of object (the three
classes `write_fits` handles at lines 826-838): plain `np.ndarray`
(stored, e.g., by `windowedOp` at line 945), NDData-like wrappers, and
tables.  For a plain ndarray `o`, `o.data` is not the array but its
raw-buffer `memoryview`, and `memoryview[y1:y2+1, x1:x2+1]` raises
`NotImplementedError` (multi-dimensional sub-views are not implemented),
which the `except AttributeError` at line 512 does not catch. -/

abbrev Mat := List (List Int)

/-- `l[a:b]` for non-negative `a`, `b`: Python's clamping slice. -/
def sliceRange {α : Type} (l : List α) (a b : Nat) : List α :=
  (l.drop a).take (b - a)

/-- `a[y1:y2+1, x1:x2+1]` on a 2-D array. -/
def crop2d (m : Mat) (x1 y1 x2 y2 : Nat) : Mat :=
  (sliceRange m y1 (y2 + 1)).map (fun row => sliceRange row x1 (x2 + 1))

/-- The numpy `.shape` of a (rectangular) 2-D array. -/
def mShape (m : Mat) : Nat × Nat := (m.length, m.headI.length)

/-- The uncaught `NotImplementedError` from slicing an `np.ndarray`'s
`.data` memoryview with a 2-D index. -/
def NotImplementedErrorS : Str :=
  ['N', 'o', 't', 'I', 'm', 'p', 'l', 'e', 'm', 'e', 'n', 't', 'e', 'd']

inductive AuxObj
  | arr (a : Mat)
  | ndd (a : Mat)
  | tbl (rows : List Int)
  deriving Repr, DecidableEq

structure NDm where
  data : Mat
  uncertainty : Option Mat
  mask : Option Mat
  other : List (Str × AuxObj)
  deriving Repr, DecidableEq

/-- `FitsProvider._crop_nd` (lines 494-499) on the main `NDAstroData`
unit: reassign data, and uncertainty / mask when present, to the
doubly-sliced sub-arrays. -/
def crop_nd (nd : NDm) (x1 y1 x2 y2 : Nat) : NDm :=
  { nd with
    data := crop2d nd.data x1 y1 x2 y2
    uncertainty := nd.uncertainty.map (fun u => crop2d u x1 y1 x2 y2)
    mask := nd.mask.map (fun m => crop2d m x1 y1 x2 y2) }

/-- The per-auxiliary-object step of `_crop_impl` (lines 508-515): the
`try` block reads `o.shape` and, on a match with the pre-crop primary
shape, calls `_crop_nd(o, ...)`.  A table has no `.shape`: the
`AttributeError` is caught and the object is left unchanged.  An
NDData-like auxiliary is cropped through its wrapped array.  A plain
`np.ndarray` auxiliary crashes: `_crop_nd` evaluates
`o.data[y1:y2+1, x1:x2+1]` on the array's `memoryview`, raising
`NotImplementedError`, which the `except AttributeError` handler does
not catch, so the exception propagates out of `crop`. -/
def cropAux (origShape : Nat × Nat) (o : AuxObj) (x1 y1 x2 y2 : Nat) :
    Except Str AuxObj :=
  match o with
  | AuxObj.arr a =>
      if mShape a = origShape then Except.error NotImplementedErrorS
      else Except.ok (AuxObj.arr a)
  | AuxObj.ndd a =>
      if mShape a = origShape then
        Except.ok (AuxObj.ndd (crop2d a x1 y1 x2 y2))
      else Except.ok (AuxObj.ndd a)
  | AuxObj.tbl r => Except.ok (AuxObj.tbl r)

/-- The value `cropAux` computes when it does not raise: matching
NDData-like auxiliaries cropped, everything else untouched (used to
state the success path of `crop`). -/
def cropAuxOk (origShape : Nat × Nat) (o : AuxObj) (x1 y1 x2 y2 : Nat) :
    AuxObj :=
  match o with
  | AuxObj.arr a => AuxObj.arr a
  | AuxObj.ndd a =>
      if mShape a = origShape then AuxObj.ndd (crop2d a x1 y1 x2 y2)
      else AuxObj.ndd a
  | AuxObj.tbl r => AuxObj.tbl r

/-- Whether a unit holds a plain-ndarray auxiliary whose shape matches
the pre-crop primary shape — exactly the objects on which `_crop_nd`
raises `NotImplementedError`. -/
def hasBadAux (nd : NDm) : Bool :=
  nd.other.any (fun p =>
    match p.2 with
    | AuxObj.arr a => mShape a = mShape nd.data
    | _ => false)

/-- The auxiliary loop of `_crop_impl` (lines 508-515), in dict order;
the first matching plain-ndarray auxiliary aborts the whole crop. -/
def cropOthers (origShape : Nat × Nat)
    (others : List (Str × AuxObj)) (x1 y1 x2 y2 : Nat) :
    Except Str (List (Str × AuxObj)) :=
  match others with
  | [] => Except.ok []
  | p :: rest =>
      match cropAux origShape p.2 x1 y1 x2 y2 with
      | Except.error e => Except.error e
      | Except.ok o2 =>
          match cropOthers origShape rest x1 y1 x2 y2 with
          | Except.error e => Except.error e
          | Except.ok rest2 => Except.ok ((p.1, o2) :: rest2)

/-- `FitsProvider._crop_impl` over a list of units (lines 501-515), as
called by `FitsProvider.crop` (lines 517-518): crop each unit's arrays,
then each auxiliary object whose shape equals the unit's pre-crop
primary shape; an uncaught `NotImplementedError` from a plain-ndarray
auxiliary propagates and aborts the operation. -/
def crop_impl (nds : List NDm) (x1 y1 x2 y2 : Nat) :
    Except Str (List NDm) :=
  match nds with
  | [] => Except.ok []
  | nd :: rest =>
      match cropOthers (mShape nd.data) nd.other x1 y1 x2 y2 with
      | Except.error e => Except.error e
      | Except.ok o2 =>
          match crop_impl rest x1 y1 x2 y2 with
          | Except.error e => Except.error e
          | Except.ok rest2 =>
              Except.ok
                ({ crop_nd nd x1 y1 x2 y2 with other := o2 } :: rest2)

/-! ## Chunked operator executor (`windowedOp`, fits.py lines 847-948)

n-dimensional arrays are modelled as a shape plus a total index function
(modelling values at all indices; only in-shape indices are meaningful).
`np.empty` is an arbitrary `init` function — the model does not assume
zero-initialisation, so full block coverage is required for correctness,
exactly as in the code. -/

structure ArrF where
  shape : List Nat
  val : List Nat → Int

/-- One axis of `generate_boxes`' `ticks`:
`[(x, x+step) for x in range(0, axis, step)]`; `range(0, axis, step)` has
`⌈axis/step⌉` elements for positive `step`. -/
def ticks (axis step : Nat) : List (Nat × Nat) :=
  (List.range ((axis + step - 1) / step)).map (fun i => (i * step, i * step + step))

/-- `itertools.product`, the last axis varying fastest. -/
def cartProduct {α : Type} : List (List α) → List (List α)
  | [] => [[]]
  | l :: ls => l.flatMap (fun x => (cartProduct ls).map (fun rest => x :: rest))

/-- `windowedOp.generate_boxes` (lines 873-879): assert equal rank (else
`AssertionError`), then the cartesian product of per-axis tick intervals
(`range` with step 0 raises `ValueError`). -/
def generate_boxes (shape kernel : List Nat) :
    Except Str (List (List (Nat × Nat))) :=
  if ¬ shape.length = kernel.length then
    Except.error ['A', 's', 's', 'e', 'r', 't']
  else if kernel.any (fun k => k = 0) then
    Except.error ['V', 'a', 'l', 'u', 'e', '0']
  else Except.ok (cartProduct (List.zipWith ticks shape kernel))

/-- Componentwise containment of an index in a box of half-open intervals. -/
def inBoxb : List (Nat × Nat) → List Nat → Bool
  | [], [] => true
  | t :: bs, x :: xs => (t.1 ≤ x && x < t.2) && inBoxb bs xs
  | _, _ => false

/-- Componentwise containment of an index in a shape. -/
def inShapeb : List Nat → List Nat → Bool
  | [], [] => true
  | s :: ss, x :: xs => (x < s) && inShapeb ss xs
  | _, _ => false

/-- `element.window[section]`: the sub-array view starting at `starts`, in
local coordinates. -/
def window (a : ArrF) (starts : List Nat) : List Nat → Int :=
  fun loc => a.val (List.zipWith (fun s l => s + l) starts loc)

/-- `result.set_section(section, out)`: overwrite the box's window of `res`
with `out` (indexed from the box's start corner). -/
def setSection (res : List Nat → Int) (box : List (Nat × Nat))
    (out : List Nat → Int) : List Nat → Int :=
  fun idx =>
    if inBoxb box idx then
      out (List.zipWith (fun x t => x - t.1) idx box)
    else res idx

/-- The shape-resolution step of `windowedOp` (lines 881-885): when no
shape is given, fail with `ValueError` if the inputs disagree on shape
(`len({x.shape for x in sequence}) > 1`), else take `sequence[0].shape`
(an empty sequence gives `IndexError`). -/
def resolveShapeNone (sequence : List ArrF) : Except Str (List Nat) :=
  if 1 < (sequence.map (fun x => x.shape)).dedup.length then
    Except.error ['V', 'a', 'l', 'u', 'e']
  else
    match sequence with
    | [] => Except.error ['I', 'n', 'd', 'e', 'x']
    | a :: _ => Except.ok a.shape

def resolveShape (sequence : List ArrF) :
    Option (List Nat) → Except Str (List Nat)
  | some s => Except.ok s
  | none => resolveShapeNone sequence

def windowedOp (func : List (List Nat → Int) → (List Nat → Int))
    (sequence : List ArrF) (kernel : List Nat) (shape? : Option (List Nat))
    (init : List Nat → Int) : Except Str (List Nat → Int) :=
  match resolveShape sequence shape? with
  | Except.error e => Except.error e
  | Except.ok shape =>
      match generate_boxes shape kernel with
      | Except.error e => Except.error e
      | Except.ok boxes =>
          Except.ok (boxes.foldl (fun res box =>
            setSection res box
              (func (sequence.map
                (fun a => window a (box.map (fun t => t.1)))))) init)

/-! ## Slicing proxies (`FitsProviderProxy`, fits.py lines 327-425)

A Proxy is its ordered index list into the Provider plus the single/multi
flag (`_slice(indices, multi)` builds `FitsProviderProxy(self, indices,
single=not multi)`).  `normalize_indices` lives in `astrodata/utils.py`,
which is not part of the sources; it is modelled from the spec as Python's
slice normalization against `nitems` (and `__len__` of a Proxy as the
length of its index list). -/

def TypeErrorStr : Str := ['T', 'y', 'p', 'e']
def IndexErrorStr : Str := ['I', 'n', 'd', 'e', 'x']
def ValueErrorStr : Str := ['V', 'a', 'l', 'u', 'e']

/-- A selector: a (possibly negative) integer index or a slice. -/
inductive Selector
  | idx (i : Int)
  | slc (start? stop? step? : Option Int)
  deriving Repr, DecidableEq

/-- CPython's clamp of a provided slice bound for a positive step. -/
def clampPos (v : Int) (n : Nat) : Int :=
  if v < 0 then max (v + n) 0 else min v n

/-- CPython's clamp of a provided slice bound for a negative step. -/
def clampNeg (v : Int) (n : Nat) : Int :=
  if v < 0 then max (v + n) (-1) else min v ((n : Int) - 1)

/-- Start bound for a negative step (default `n-1`). -/
def negStart (start? : Option Int) (n : Nat) : Int :=
  match start? with
  | none => (n : Int) - 1
  | some v => clampNeg v n

/-- Stop bound for a negative step (default `-1`). -/
def negStop (stop? : Option Int) (n : Nat) : Int :=
  match stop? with
  | none => -1
  | some v => clampNeg v n

/-- Modelled from the spec: Python's `range(n)[start:stop:step]` (the
index normalization of `astrodata.utils.normalize_indices` for a slice
selector, whose source is not in the repository snapshot).  `none` models
the `ValueError` for a zero step.  For a positive step the selected
indices are the `j < n` with `start ≤ j < stop` and `j ≡ start (mod
step)`, in increasing order; for a negative step those with `stop < j ≤
start` and `j ≡ start (mod |step|)`, in decreasing order — CPython's
`slice.indices` semantics. -/
def pySliceIndices (start? stop? step? : Option Int) (n : Nat) :
    Option (List Nat) :=
  if step?.getD 1 = 0 then none
  else if 0 < step?.getD 1 then
    some ((List.range n).filter (fun (j : Nat) =>
      clampPos (start?.getD 0) n ≤ (j : Int) ∧
      (j : Int) < clampPos (stop?.getD n) n ∧
      ((j : Int) - clampPos (start?.getD 0) n) % step?.getD 1 = 0))
  else
    some (((List.range n).filter (fun (j : Nat) =>
      negStop stop? n < (j : Int) ∧ (j : Int) ≤ negStart start? n ∧
      (negStart start? n - (j : Int)) % (- step?.getD 1) = 0)).reverse)

/-- Modelled from the spec: `normalize_indices(slc, nitems)` — a single
(possibly negative) integer yields one index and `multiple = False`
(`IndexError` out of range), a slice yields the normalized index tuple and
`multiple = True`. -/
def normalize_indices (slc : Selector) (nitems : Nat) :
    Except Str (List Nat × Bool) :=
  match slc with
  | Selector.idx i =>
      if 0 ≤ (if i < 0 then i + nitems else i) ∧
          (if i < 0 then i + nitems else i) < nitems then
        Except.ok ([(if i < 0 then i + nitems else i).toNat], false)
      else Except.error IndexErrorStr
  | Selector.slc a b c =>
      match pySliceIndices a b c nitems with
      | none => Except.error ValueErrorStr
      | some idxs => Except.ok (idxs, true)

/-- A Proxy view: the ordered Provider index list and the single flag. -/
structure ProxyM where
  mapping : List Nat
  single : Bool
  deriving Repr, DecidableEq

/-- `FitsProvider._slice(indices, multi)` (line 483-484):
`FitsProviderProxy(self, indices, single=not multi)`. -/
def provider_slice (indices : List Nat) (multi : Bool) : ProxyM :=
  ⟨indices, ! multi⟩

/-- `FitsProviderProxy.__getitem__` (lines 399-405): a single slice cannot
be sliced (`TypeError`); otherwise normalize against the Proxy's own
length and map the result through `self._mapping`. -/
def proxy_getitem (p : ProxyM) (slc : Selector) : Except Str ProxyM :=
  if p.single then Except.error TypeErrorStr
  else
    match normalize_indices slc p.mapping.length with
    | Except.error e => Except.error e
    | Except.ok (indices, multiple) =>
        Except.ok (provider_slice
          (indices.map (fun idx => p.mapping.getD idx 0)) multiple)

/-- `FitsProviderProxy.__iter__` (lines 392-397): a single view yields
itself once; a multi view yields `provider._slice((n,), multi=False)` for
each `n` in its mapping, in order. -/
def proxy_iter (p : ProxyM) : List ProxyM :=
  if p.single then [p]
  else p.mapping.map (fun n => provider_slice [n] false)

/-! ## WCS codec (`wcs_to_asdftablehdu`, fits.py lines 958-1013)

The asdf library is external: a transform is modelled by whether all its
constituents carry registered serialization tags (`taggable`; a missing
tag makes `asdf.AsdfFile` raise `ValidationError`, converted to
`TypeError`) and by the byte string its inline-arrays YAML dump produces
(`doc`).  Bytes are naturals; strict-ASCII decoding succeeds iff every
byte is below 128.  `splitlines` is Python's `str.splitlines` restricted
to ASCII input (terminators `\n \x0b \x0c \r \x1c \x1d \x1e`, with `\r\n`
counting once, and no trailing empty line). -/

structure WcsObjM where
  taggable : Bool
  doc : List Nat
  deriving Repr, DecidableEq

/-- Modelled from the spec: `asdf.AsdfFile({"wcs": wcs})` followed by
`write_to(fd, all_array_storage='inline')` — fails (`ValidationError`,
re-raised as `TypeError`) iff some constituent model has no registered
ASDF tag, else yields the serialized YAML bytes. -/
def asdfSerialize (w : WcsObjM) : Except Str (List Nat) :=
  if w.taggable then Except.ok w.doc else Except.error TypeErrorStr

/-- ASCII line-terminator bytes recognized by `str.splitlines`. -/
def isLineBreak (c : Nat) : Bool :=
  c = 10 || c = 11 || c = 12 || c = 13 || c = 28 || c = 29 || c = 30

def splitlinesAux : List Nat → List Nat → List (List Nat)
  | [], acc => if acc.isEmpty then [] else [acc.reverse]
  | c :: rest, acc =>
      if isLineBreak c then
        if c = 13 ∧ rest.head? = some 10 then
          acc.reverse :: splitlinesAux rest.tail []
        else
          acc.reverse :: splitlinesAux rest []
      else splitlinesAux rest (c :: acc)
  termination_by l _ => l.length
  decreasing_by
  · simp only [List.length_cons]
    have : rest.tail.length ≤ rest.length := by
      cases rest <;> simp
    omega
  · simp only [List.length_cons]
    omega
  · simp only [List.length_cons]
    omega

/-- Python's `str.splitlines` on ASCII byte content. -/
def splitlines (l : List Nat) : List (List Nat) := splitlinesAux l []

/-- The HDU produced by the codec: a `TableHDU` (ASCII text, one `gWCS`
column, one row per line) or a `BinTableHDU` (one byte-array column),
named `WCS` and tagged with the unit's version. -/
inductive WcsHDUm
  | text (rows : List (List Nat)) (ver : Option Int)
  | binary (bytes : List Nat) (ver : Option Int)
  deriving Repr, DecidableEq

/-- `wcs_to_asdftablehdu` (lines 958-1013): serialize the transform (a
missing tag raises `TypeError`); try a strict-ASCII decode and line
split — on success build the ASCII text table, on `UnicodeDecodeError`
log a warning and fall back to a binary table of the raw bytes.  The
returned flag records whether the fallback warning was logged. -/
def wcs_to_asdftablehdu (w : WcsObjM) (extver : Option Int) :
    Except Str (WcsHDUm × Bool) :=
  match asdfSerialize w with
  | Except.error e => Except.error e
  | Except.ok wcsbuf =>
      if wcsbuf.all (fun b => b < 128) then
        Except.ok (WcsHDUm.text (splitlines wcsbuf) extver, false)
      else
        Except.ok (WcsHDUm.binary wcsbuf extver, true)

/-! ## Reader and Writer (`_prepare_hdulist` lines 616-663, `read_fits`
lines 666-783, `write_fits` lines 786-844)

Units, providers and raw HDU lists are modelled at the granularity the
round-trip claims need: every array is its byte/value list, and the
external collaborators (the asdf serializer used by the WCS codec, and
`astrodata.wcs.fitswcs_to_gwcs` / `gwcs_to_fits`, which live outside the
snapshot) are an abstract environment `WcsEnv`; the unit (name, version)
bookkeeping and the extension ordering — what the claims are about — are
embedded from the source. -/

def VARn : Str := ['V', 'A', 'R']
def DQn : Str := ['D', 'Q']
def WCSn : Str := ['W', 'C', 'S']
def REFCATn : Str := ['R', 'E', 'F', 'C', 'A', 'T']
def MDFn : Str := ['M', 'D', 'F']

/-- `skip_names = {DEFAULT_EXTENSION, 'REFCAT', 'MDF'}` (line 702). -/
def skipNames : List Str := [SCI, REFCATn, MDFn]

/-- The external collaborators: the asdf library (parse / dump of a WCS
document, modelled by opaque `Nat` transform identities) and the
`astrodata.wcs` helpers (header-derived WCS; FITS down-conversion, where
`none` models a `ValueError`/`NotImplementedError` and `some exact` a
successful conversion that is exact iff `exact`). -/
structure WcsEnv where
  asdfParse : List Int → Option Nat
  asdfDump : Nat → List Int
  fitswcsFromHeader : Option Str × Option Int → Option Nat
  gwcsDownConv : Nat → Option Bool

/-- `asdftablehdu_to_wcs` (lines 1015-1077) at the granularity the reader
needs: only a FITS table extension can decode, and parse failures (no
`gWCS` column, unparsable ASDF, missing `wcs` entry) yield no transform:
all folded into `asdfParse` returning `none`. -/
def asdftablehdu_to_wcs (E : WcsEnv) (hdu : HDUm) : Option Nat :=
  if hdu.kind = HDUKind.table then E.asdfParse (hdu.data.getD []) else none

/-- An auxiliary object stored in a unit's `meta['other']`: an image
array (with its recorded header, as kept in `meta['other_header']`) or a
table (whose header lives in the table's own `meta`). -/
inductive AuxM
  | img (name : Str) (hver : Option Int) (payload : List Int)
  | tbl (name : Str) (hver : Option Int) (payload : List Int)
  deriving Repr, DecidableEq

/-- A logical unit: its `(name, version)` identity, the `EXTNAME`/`EXTVER`
cards of its metadata record, its arrays, transform, and auxiliaries. -/
structure UnitM where
  name : Str
  ver : Int
  hname : Option Str
  hver : Option Int
  data : List Int
  uncertainty : Option (List Int)
  mask : Option (List Int)
  wcs : Option Nat
  other : List AuxM
  deriving Repr, DecidableEq

/-- A container provider: primary metadata, ordered units, and the
container-level tables (`_tables`: name ↦ (header `EXTVER`, payload)). -/
structure ProviderM where
  phuName : Option Str
  phuVer : Option Int
  nddata : List UnitM
  tables : List (Str × Option Int × List Int)
  deriving Repr, DecidableEq

/-- Whether pass 1 of `_prepare_hdulist` recognizes an extension:
`EXTVER` not in `(-1, None)` and `EXTNAME` present (lines 626-628). -/
def recogP (u : HDUm) : Bool :=
  (match u.extver with
   | none => false
   | some v => ¬ v = -1) && u.extname.isSome

/-- `highest_ver` after pass 1 (lines 618, 626-629). -/
def highestVer (hs : List HDUm) : Int :=
  hs.foldl (fun acc u => if recogP u then max acc (u.extver.getD 0) else acc) 0

/-- Pass 2 of `_prepare_hdulist` (lines 636-647): each unrecognized
`ImageHDU` bumps `highest_ver`, receives the default name if unnamed and
the bumped version if unversioned; other unrecognized HDUs pass through. -/
def pass2 (hv : Int) : List HDUm → List HDUm
  | [] => []
  | u :: rest =>
      if u.kind = HDUKind.image then
        ⟨HDUKind.image, some (u.extname.getD SCI),
          some (if u.extver = none ∨ u.extver = some (-1) then hv + 1
            else u.extver.getD 0),
          u.data⟩ :: pass2 (hv + 1) rest
      else u :: pass2 hv rest

/-- The `sorted` comparison: `a` may precede `b` iff `b`'s key is not
smaller (Python's stable sort on `fits_ext_comp_key`). -/
def extLe (a b : HDUm) : Bool :=
  ! keyLt (fits_ext_comp_key b) (fits_ext_comp_key a)

/-- `_prepare_hdulist` (lines 616-663): the MEF branch keeps recognized
extensions and primary HDUs, then assigns names/versions to the remaining
image HDUs; the single-image branch synthesizes a primary plus a
`SCI`-v1 image; both end with the stable sort on `fits_ext_comp_key`. -/
def _prepare_hdulist (hdulist : List HDUm) : List HDUm :=
  if 1 < hdulist.length ∨
      (hdulist.length = 1 ∧ (hdulist.headI).data = none) then
    ((hdulist.filter (fun u => recogP u || u.kind = HDUKind.primary)) ++
      pass2 (highestVer hdulist)
        (hdulist.filter (fun u => ! (recogP u || u.kind = HDUKind.primary)))
      ).mergeSort extLe
  else
    match hdulist with
    | [u] =>
        ([⟨HDUKind.primary, u.extname, u.extver, none⟩,
          ⟨HDUKind.image, some SCI, some 1, u.data⟩] : List HDUm).mergeSort
          extLe
    | _ => []

/-- `associated_extensions(ver)` (lines 704-708): extensions whose
`EXTVER` equals `ver` and whose `EXTNAME` is outside `skip_names`. -/
def associated (hs : List HDUm) (ver : Int) : List HDUm :=
  hs.filter (fun u =>
    u.extver = some ver ∧ ¬ u.extname.getD [] ∈ skipNames)

/-- Bucketing one associated extension into a unit auxiliary. -/
def mkAux (x : HDUm) : AuxM :=
  if x.kind = HDUKind.table then
    AuxM.tbl (x.extname.getD []) x.extver (x.data.getD [])
  else AuxM.img (x.extname.getD []) x.extver (x.data.getD [])

/-- The per-`SCI`-extension body of the reader loop (lines 713-754):
gather the associated extensions, bucket them into mask (`DQ`),
uncertainty (`VAR`), transform (`WCS`, last one winning as in the loop)
and auxiliaries, then build the unit the memmapped branch constructs
(lines 736-754): the transform is decoded from the `WCS` extension when
present, and whenever that yields nothing it is derived from the unit's
own header, falling back to the primary header.  The eager branch (lines
756-769) never builds a unit: it evaluates the undefined name `NDData`
at line 762 (its import at line 20 is commented out) and raises
`NameError`, modelled in `read_fits`.  The unit keeps `name='SCI'` and
the on-disk version verbatim (`reset_ver=False`; `FitsProvider.append`
itself is not in the snapshot and is modelled from the spec, §4.2; every
prepared image extension carries an `EXTVER`, assigned by pass 2 when
missing, so the `-1` default of `getD` is inert here). -/
def buildUnit (E : WcsEnv) (prepared : List HDUm)
    (phuKey : Option Str × Option Int) (u : HDUm) : UnitM :=
  { name := SCI
    ver := u.extver.getD (-1)
    hname := u.extname
    hver := u.extver
    data := u.data.getD []
    uncertainty :=
      ((associated prepared (u.extver.getD (-1))).filter
        (fun x => x.extname = some VARn)).getLast?.map (fun x => x.data.getD [])
    mask :=
      ((associated prepared (u.extver.getD (-1))).filter
        (fun x => x.extname = some DQn)).getLast?.map (fun x => x.data.getD [])
    wcs :=
      match (match ((associated prepared (u.extver.getD (-1))).filter
          (fun x => x.extname = some WCSn)).getLast? with
        | some we => asdftablehdu_to_wcs E we
        | none => none) with
      | some w => some w
      | none =>
          match E.fitswcsFromHeader (u.extname, u.extver) with
          | some w => some w
          | none => E.fitswcsFromHeader phuKey
    other :=
      ((associated prepared (u.extver.getD (-1))).filter
        (fun x => ¬ (x.extname = some VARn ∨ x.extname = some DQn ∨
          x.extname = some WCSn))).map mkAux }

/-- The `EXTVER`s of the `SCI` extensions of a prepared list (after the
primary), used to decide which extensions were consumed by some unit. -/
def sciVers (prepared : List HDUm) : List Int :=
  ((prepared.drop 1).filter (fun u => u.extname = some SCI)).map
    (fun u => u.extver.getD (-1))

/-- Whether an extension (beyond the primary) is in `seen` after the unit
loop: it is a `SCI` extension, or it is associated with some unit's
version (lines 700-774). -/
def isSeen (prepared : List HDUm) (u : HDUm) : Bool :=
  (u.extname = some SCI) ||
    (sciVers prepared).any (fun v =>
      u.extver = some v ∧ ¬ u.extname.getD [] ∈ skipNames)

/-- `dict` write into `_tables` (insertion-ordered, overwriting). -/
def tablePut (ts : List (Str × Option Int × List Int)) (k : Str)
    (v : Option Int × List Int) : List (Str × Option Int × List Int) :=
  if ts.any (fun e => e.1 = k) then
    ts.map (fun e => if e.1 = k then (k, v) else e)
  else ts ++ [(k, v)]

/-- The leftover loop body (lines 774-781): `ad.append(other, name=name,
reset_ver=False)`, guarded by `except ValueError: ... Discarding`.
`FitsProvider.append` is absent from the snapshot and modelled from the
spec: a tabular extension becomes a container-level table under its
`EXTNAME` (§4.4); an image extension carrying an array becomes a fresh
unit keeping its on-disk name and version verbatim (§4.2,
`reset_ver=False`; leftover images always carry both cards — pass 2
names unnamed images `SCI`, making them seen); appending anything else —
notably a data-less HDU such as a displaced primary, which is neither a
raw array, a table, nor an NDData object — raises `ValueError` (§4.2),
which the loop catches, warns about, and discards (§4.4, lines
778-781). -/
def appendLeftover (p : ProviderM) (u : HDUm) : ProviderM :=
  if u.kind = HDUKind.table then
    { p with tables := (tablePut p.tables (u.extname.getD [])
        (u.extver, u.data.getD [])) }
  else
    match u.kind, u.data with
    | HDUKind.image, some payload =>
        { p with nddata := p.nddata ++
            [⟨u.extname.getD [], u.extver.getD (-1), u.extname, u.extver,
              payload, none, none, none, []⟩] }
    | _, _ => p

/-- The `NameError` raised at line 762: the eager branch evaluates
`isinstance(nd, NDData)` but `NDData` is never imported (line 20 is
commented out). -/
def NameErrorStr : Str := ['N', 'a', 'm', 'e']

/-- `read_fits` (lines 666-783): prepare the HDU list, take the first
prepared HDU as the container metadata (an empty list would fail at
`hdulist[0]`), build one unit per `SCI` extension in order, then append
every unseen extension as a table or a fresh unit (discarding failures).
On a non-memmapped source the eager per-unit branch is taken (line 755)
and raises `NameError` at line 762 for the first `SCI` extension, so an
eager read completes only when there is no `SCI` extension to
materialize. -/
def read_fits (E : WcsEnv) (memmap : Bool) (hdulist0 : List HDUm) :
    Except Str ProviderM :=
  match _prepare_hdulist hdulist0 with
  | [] => Except.error IndexErrorStr
  | phu :: rest =>
      if memmap = false ∧
          ¬ (rest.filter (fun u => u.extname = some SCI)) = [] then
        Except.error NameErrorStr
      else
        Except.ok
          ((rest.filter (fun u => ! isSeen (phu :: rest) u)).foldl
            appendLeftover
            ⟨phu.extname, phu.extver,
              (rest.filter (fun u => u.extname = some SCI)).map
                (buildUnit E (phu :: rest) (phu.extname, phu.extver)),
              []⟩)

/-- One auxiliary object's extension (lines 828-838): a table via
`table_to_bintablehdu` (header from the table's `meta`), an array via
`new_imagehdu` with the header recorded in `other_header` and the
auxiliary's name. -/
def auxHDU (a : AuxM) : HDUm :=
  match a with
  | AuxM.img n hv payload => ⟨HDUKind.image, some n, hv, some payload⟩
  | AuxM.tbl n hv payload => ⟨HDUKind.table, some n, hv, some payload⟩

/-- Whether the writer suppresses the separate transform extension
(lines 795-817): only when the FITS down-conversion succeeds and is an
exact (non-`APPROXIMATE`) match; a failed conversion logs a warning and
keeps the extension. -/
def wcsKeep (E : WcsEnv) (w? : Option Nat) : Option Nat :=
  match w? with
  | none => none
  | some w =>
      match E.gwcsDownConv w with
      | none => some w
      | some exact => if exact then none else some w

/-- The extensions one unit contributes, in emission order (lines
790-838): primary array, uncertainty (`VAR`), mask (`DQ`), transform
extension (unless suppressed), then auxiliaries. -/
def unitHDUs (E : WcsEnv) (u : UnitM) : List HDUm :=
  ⟨HDUKind.image, u.hname, u.hver, some u.data⟩ ::
    ((match u.uncertainty with
      | some payload => [⟨HDUKind.image, some VARn, u.hver, some payload⟩]
      | none => []) ++
    (match u.mask with
      | some payload => [⟨HDUKind.image, some DQn, u.hver, some payload⟩]
      | none => []) ++
    (match wcsKeep E u.wcs with
      | some w => [⟨HDUKind.table, some WCSn, some u.ver,
          some (E.asdfDump w)⟩]
      | none => []) ++
    u.other.map auxHDU)

/-- `sorted(ad._tables.items())`: table entries by name (names are dict
keys, hence distinct). -/
def tablesSorted (ts : List (Str × Option Int × List Int)) :
    List (Str × Option Int × List Int) :=
  ts.mergeSort (fun a b => ! strLt b.1 a.1)

/-- A container-level table's extension: `table_to_bintablehdu(table,
extname=name)` (lines 840-842). -/
def tableHDU (t : Str × Option Int × List Int) : HDUm :=
  ⟨HDUKind.table, some t.1, t.2.1, some t.2.2⟩

/-- `write_fits` (lines 786-844): the primary metadata extension first
(`PrimaryHDU(header=ad.phu(), data=DELAYED)`), then each unit's
extensions in provider order (an imperative `hdul.append` fold), then the
container tables sorted by name. -/
def write_fits (E : WcsEnv) (p : ProviderM) : List HDUm :=
  (p.nddata.foldl (fun hdul ext => hdul ++ unitHDUs E ext)
    [⟨HDUKind.primary, p.phuName, p.phuVer, none⟩]) ++
    (tablesSorted p.tables).map tableHDU

/-- The observable of claim C1: the ordered `(name, version)` pairs and
primary-array bytes of a provider's units. -/
def unitSig (p : ProviderM) : List (Str × Int × List Int) :=
  p.nddata.map (fun u => (u.name, u.ver, u.data))

/-! ## Well-formed containers and the provider invariant (for round-trip)

A well-formed container is a metadata-only primary followed by extensions
that each carry a nonempty `EXTNAME` and an `EXTVER` in the data model's
positive range (so the Reader's version-assignment pass is inactive), no
table being named `SCI`.  `Inv` is the shape `read_fits` produces:
`SCI` units in non-decreasing version order followed by leftover units in
key order, with consistent unit/header bookkeeping. -/

def verOK (v : Int) : Prop := 1 ≤ v ∧ v < 2 ^ 32 - 1

def wfExt (u : HDUm) : Prop :=
  ¬ u.kind = HDUKind.primary ∧
  u.extname.isSome = true ∧ ¬ u.extname.getD [] = [] ∧
  u.extver.isSome = true ∧ verOK (u.extver.getD 0) ∧
  (u.kind = HDUKind.table → ¬ u.extname = some SCI)

def wfContainer (hs : List HDUm) : Prop :=
  match hs with
  | [] => False
  | p :: rest =>
      p.kind = HDUKind.primary ∧ p.extname = none ∧ p.extver = none ∧
      p.data = none ∧ ∀ u ∈ rest, wfExt u

def wfAux (ver : Int) (a : AuxM) : Prop :=
  match a with
  | AuxM.img n hv _ => ¬ n ∈ skipNames ∧ ¬ n = [] ∧ hv = some ver
  | AuxM.tbl n hv _ => ¬ n ∈ skipNames ∧ ¬ n = [] ∧ hv = some ver

def wfSciUnit (u : UnitM) : Prop :=
  u.name = SCI ∧ u.hname = some SCI ∧ u.hver = some u.ver ∧ verOK u.ver ∧
  ∀ a ∈ u.other, wfAux u.ver a

def wfLeftUnit (sciV : List Int) (u : UnitM) : Prop :=
  ¬ u.name = SCI ∧ ¬ u.name = [] ∧ u.hname = some u.name ∧
  u.hver = some u.ver ∧ verOK u.ver ∧ u.uncertainty = none ∧
  u.mask = none ∧ u.wcs = none ∧ u.other = [] ∧
  (u.name ∈ skipNames ∨ ¬ u.ver ∈ sciV)

def wfTable (t : Str × Option Int × List Int) : Prop :=
  ¬ t.1 = SCI ∧ ¬ t.1 = [] ∧ t.2.1.isSome = true ∧ verOK (t.2.1.getD 0)

/-- The primary-array extension the Writer emits for a unit
(`new_imagehdu(ext.data, header)`, line 819). -/
def unitDataHDU (u : UnitM) : HDUm :=
  ⟨HDUKind.image, u.hname, u.hver, some u.data⟩

/-- The unit a leftover image extension turns into (`appendLeftover`). -/
def mkLeftUnit (u : HDUm) : UnitM :=
  ⟨u.extname.getD [], u.extver.getD (-1), u.extname, u.extver,
    u.data.getD [], none, none, none, []⟩

/-- The invariant satisfied by every provider `read_fits` produces. -/
def Inv (p : ProviderM) : Prop :=
  p.phuName = none ∧ p.phuVer = none ∧
  ∃ sciL leftL,
    p.nddata = sciL ++ leftL ∧
    (∀ u ∈ sciL, wfSciUnit u) ∧
    (∀ u ∈ leftL, wfLeftUnit (sciL.map (fun x => x.ver)) u) ∧
    sciL.Pairwise (fun a b => a.ver ≤ b.ver) ∧
    leftL.Pairwise (fun a b =>
      keyLt (b.ver, zAdjName b.hname) (a.ver, zAdjName a.hname) = false) ∧
    (∀ t ∈ p.tables, wfTable t)

/-- A trivial environment for concrete round-trip computations: no
decodable transforms, empty serializations, no header-derived WCS, no
FITS down-conversion. -/
def envTriv : WcsEnv := ⟨fun _ => none, fun _ => [], fun _ => none, fun _ => none⟩

/-- A well-formed container for the round-trip theorems: metadata-only
primary, two `SCI` images and a `VAR` plane. -/
def wfRoundC : List HDUm :=
  [⟨HDUKind.primary, none, none, none⟩,
   ⟨HDUKind.image, some SCI, some 1, some [5]⟩,
   ⟨HDUKind.image, some VARn, some 1, some [2]⟩,
   ⟨HDUKind.image, some SCI, some 2, some [9]⟩]

/-- The provider the memmapped read of `wfRoundC` produces. -/
def roundP : ProviderM :=
  ⟨none, none,
    [⟨SCI, 1, some SCI, some 1, [5], some [2], none, none, []⟩,
     ⟨SCI, 2, some SCI, some 2, [9], none, none, none, []⟩], []⟩

/-! ## Theorems -/

theorem foldl_set_getElem? {α : Type} (l : List Nat) (vals : List α) (d : α) (m : Nat)
    (hm : m < vals.length) :
    (l.foldl (fun v n => v.set n d) vals)[m]? =
      if m ∈ l then some d else vals[m]? := by
  induction l generalizing vals with
  | nil => simp
  | cons n rest ih =>
      have hm' : m < (vals.set n d).length := by simpa using hm
      rw [List.foldl_cons, ih (vals.set n d) hm']
      by_cases hmem : m ∈ rest
      · simp [hmem]
      · by_cases heq : m = n
        · subst heq
          simp [hmem, List.getElem?_set_eq_of_lt d hm]
        · have : n ≠ m := fun h => heq h.symm
          simp [hmem, heq, List.getElem?_set_ne this]

theorem fhcMissing_mem (headers : List Header) (key : Str) (n : Nat) :
    n ∈ fhcMissing headers key ↔
      ∃ h, headers[n]? = some h ∧ hdrGet h key = none := by
  unfold fhcMissing
  rw [List.mem_filter, List.mem_range]
  constructor
  · rintro ⟨hn, hcond⟩
    rw [decide_eq_true_eq, List.get?_eq_getElem?, List.getElem?_eq_getElem hn,
      Option.some_bind] at hcond
    exact ⟨headers[n], List.getElem?_eq_getElem hn, hcond⟩
  · rintro ⟨h, hsome, hnone⟩
    have hn : n < headers.length := by
      by_contra hge
      rw [List.getElem?_eq_none (Nat.le_of_not_lt hge)] at hsome
      exact Option.noConfusion hsome
    refine ⟨hn, ?_⟩
    rw [decide_eq_true_eq, List.get?_eq_getElem?, hsome, Option.some_bind]
    exact hnone

theorem fhcMissing_eq_nil_iff (headers : List Header) (key : Str) :
    fhcMissing headers key = [] ↔ ∀ h ∈ headers, (hdrGet h key).isSome := by
  constructor
  · intro hnil hd hmem
    obtain ⟨n, hn, rfl⟩ := List.mem_iff_getElem.mp hmem
    by_contra hnot
    have : n ∈ fhcMissing headers key := by
      rw [fhcMissing_mem]
      exact ⟨headers[n], List.getElem?_eq_getElem hn,
        Option.not_isSome_iff_eq_none.mp hnot⟩
    rw [hnil] at this
    exact absurd this (List.not_mem_nil n)
  · intro hall
    by_contra hne
    obtain ⟨n, hmem⟩ := List.exists_mem_of_ne_nil _ hne
    obtain ⟨h, hsome, hnone⟩ := (fhcMissing_mem headers key n).mp hmem
    have := hall h (List.getElem?_mem hsome)
    rw [hnone] at this
    exact Bool.noConfusion this

theorem zipWith_map_left_self {α β γ : Type} (l : List α) (g : α → β)
    (f : β → α → γ) :
    List.zipWith f (l.map g) l = l.map (fun h => f (g h) h) := by
  induction l with
  | nil => rfl
  | cons a t ih => simp [ih]

theorem find?_eraseP_ne (t : Header) (key k : Str) (hk : ¬ k = key) :
    (t.eraseP (fun c => c.1 = key)).find? (fun c => c.1 = k) =
      t.find? (fun c => c.1 = k) := by
  induction t with
  | nil => rfl
  | cons c t ih =>
      by_cases hc : c.1 = key
      · have hd : (decide (c.1 = key)) = true := by simpa using hc
        have hck : ¬ c.1 = k := by rw [hc]; intro h; exact hk h.symm
        rw [List.eraseP_cons, hd, cond_true,
          List.find?_cons_of_neg _ (by simpa using hck)]
      · have hd : (decide (c.1 = key)) = false := by simpa using hc
        rw [List.eraseP_cons, hd, cond_false]
        by_cases hck : c.1 = k
        · rw [List.find?_cons_of_pos _ (by simpa using hck),
            List.find?_cons_of_pos _ (by simpa using hck)]
        · rw [List.find?_cons_of_neg _ (by simpa using hck),
            List.find?_cons_of_neg _ (by simpa using hck), ih]

theorem find?_eraseP_self (t : Header) (key : Str)
    (hnd : (t.map Prod.fst).Nodup) :
    (t.eraseP (fun c => c.1 = key)).find? (fun c => c.1 = key) = none := by
  induction t with
  | nil => rfl
  | cons c t ih =>
      rw [List.map_cons, List.nodup_cons] at hnd
      by_cases hc : c.1 = key
      · have hd : (decide (c.1 = key)) = true := by simpa using hc
        rw [List.eraseP_cons, hd, cond_true]
        apply List.find?_eq_none.mpr
        intro x hx
        simp only [decide_eq_true_eq]
        intro hxk
        exact hnd.1 (by rw [hc, ← hxk]; exact List.mem_map_of_mem Prod.fst hx)
      · have hd : (decide (c.1 = key)) = false := by simpa using hc
        rw [List.eraseP_cons, hd, cond_false,
          List.find?_cons_of_neg _ (by simpa using hc)]
        exact ih hnd.2

/-- C7: for every Header Collection and key, the batched get with no default
returns the per-record value list when every record has the key, and
otherwise fails with a `MissingKeyError` carrying exactly the indices of the
records missing the key together with the partial result list; the batched
get with a default returns the partial result list with the default
substituted at exactly the missing indices, and never fails. -/
theorem claim_C7_header_batched_get (headers : List Header) (key : Str)
    (default : Option Int) :
    ((∀ h ∈ headers, (hdrGet h key).isSome) →
        fhcGetItem headers key =
          Except.ok (headers.map (fun h => hdrGet h key)))
    ∧ (∀ e, fhcGetItem headers key = Except.error e →
        (∀ n, n ∈ e.missing_at ↔
            ∃ h, headers[n]? = some h ∧ hdrGet h key = none)
        ∧ e.values = headers.map (fun h => hdrGet h key)
        ∧ ∃ h ∈ headers, hdrGet h key = none)
    ∧ ((∃ h ∈ headers, hdrGet h key = none) →
        ∃ e, fhcGetItem headers key = Except.error e)
    ∧ (∀ (n : Nat) (h : Header), headers[n]? = some h →
        (fhcGet headers key default)[n]? =
          some (if hdrGet h key = none then default else hdrGet h key)) := by
  refine ⟨?_, ?_, ?_, ?_⟩
  · intro hall
    unfold fhcGetItem
    rw [(fhcMissing_eq_nil_iff headers key).mpr hall]
    rfl
  · intro e herr
    unfold fhcGetItem at herr
    split at herr
    · exact Except.noConfusion herr
    · rename_i hne
      rw [List.isEmpty_iff] at hne
      obtain rfl : (⟨fhcMissing headers key,
          headers.map (fun h => hdrGet h key)⟩ : MissingKeyError) = e :=
        Except.error.inj herr
      refine ⟨fun n => fhcMissing_mem headers key n, rfl, ?_⟩
      obtain ⟨n, hmem⟩ := List.exists_mem_of_ne_nil _ hne
      obtain ⟨h, hsome, hnone⟩ := (fhcMissing_mem headers key n).mp hmem
      exact ⟨h, List.getElem?_mem hsome, hnone⟩
  · rintro ⟨h, hmem, hnone⟩
    unfold fhcGetItem
    split
    · rename_i hemp
      rw [List.isEmpty_iff, fhcMissing_eq_nil_iff] at hemp
      have := hemp h hmem
      rw [hnone] at this
      exact Bool.noConfusion this
    · exact ⟨_, rfl⟩
  · intro n h hsome
    have hn : n < headers.length := by
      by_contra hge
      rw [List.getElem?_eq_none (Nat.le_of_not_lt hge)] at hsome
      exact Option.noConfusion hsome
    unfold fhcGet
    cases hcase : fhcGetItem headers key with
    | ok vals =>
        unfold fhcGetItem at hcase
        split at hcase
        · rename_i hemp
          rw [List.isEmpty_iff, fhcMissing_eq_nil_iff] at hemp
          obtain rfl := Except.ok.inj hcase
          have hpres := hemp h (List.getElem?_mem hsome)
          rw [if_neg (by
            intro hnone; rw [hnone] at hpres; exact Bool.noConfusion hpres)]
          rw [List.getElem?_map, hsome]
          rfl
        · exact Except.noConfusion hcase
    | error e =>
        unfold fhcGetItem at hcase
        split at hcase
        · exact Except.noConfusion hcase
        · obtain rfl : (⟨fhcMissing headers key,
              headers.map (fun h => hdrGet h key)⟩ : MissingKeyError) = e :=
            Except.error.inj hcase
          have hlen : n < (headers.map fun h => hdrGet h key).length := by
            simpa using hn
          show (List.foldl (fun vals n => vals.set n default)
            (headers.map fun h => hdrGet h key) (fhcMissing headers key))[n]? = _
          rw [foldl_set_getElem? _ _ _ _ hlen]
          by_cases hmem : n ∈ fhcMissing headers key
          · obtain ⟨h2, hsome2, hnone2⟩ := (fhcMissing_mem headers key n).mp hmem
            rw [hsome] at hsome2
            obtain rfl := Option.some.inj hsome2
            rw [if_pos hmem, if_pos hnone2]
          · rw [if_neg hmem, List.getElem?_map, hsome]
            rw [if_neg (fun hnone =>
              hmem ((fhcMissing_mem headers key n).mpr ⟨h, hsome, hnone⟩))]
            rfl

/-- Witness for C7 at a concrete collection: the second header lacks key
`A`, so the batched get with default `7` yields the default there. -/
theorem claim_C7_header_batched_get_witness :
    (fhcGet [[((['A'] : Str), (5 : Int))], []] ['A'] (some 7))[1]? =
      some (some 7) := by
  have h := (claim_C7_header_batched_get [[((['A'] : Str), (5 : Int))], []]
    ['A'] (some 7)).2.2.2 1 [] (by rfl)
  simpa [hdrGet] using h

theorem hdrDel_isSome (h : Header) (key : Str) :
    (hdrDel h key).isSome = (hdrGet h key).isSome := by
  unfold hdrDel hdrGet
  cases hf : h.find? (fun c => c.1 = key) <;> simp [hf]

/-- C8: for every Header Collection and key, `remove` deletes the key from
every record that has it (records without the key are unchanged; with
duplicate-free keywords the key is gone and all other keywords keep their
values), and fails with `MissingKeyError` if and only if no record had the
key. -/
theorem claim_C8_header_remove (headers : List Header) (key : Str) :
    (fhcRemove headers key = none ↔ ∀ h ∈ headers, hdrGet h key = none)
    ∧ (∀ out, fhcRemove headers key = some out →
        out.length = headers.length
        ∧ (∀ (n : Nat) (h : Header), headers[n]? = some h →
            (hdrGet h key = none → out[n]? = some h)
            ∧ ((h.map Prod.fst).Nodup →
                ∃ h2, out[n]? = some h2 ∧ hdrGet h2 key = none ∧
                  ∀ k, ¬ k = key → hdrGet h2 k = hdrGet h k))
        ∧ ∃ h ∈ headers, (hdrGet h key).isSome) := by
  have hzip : List.zipWith (fun r h => r.getD h)
      (headers.map (fun h => hdrDel h key)) headers =
      headers.map (fun h => (hdrDel h key).getD h) :=
    zipWith_map_left_self headers _ _
  constructor
  · unfold fhcRemove
    constructor
    · intro hnone
      split at hnone
      · rename_i hzero
        intro h hmem
        rw [List.length_eq_zero, List.filter_eq_nil_iff] at hzero
        have := hzero _ (List.mem_map_of_mem (fun h => hdrDel h key) hmem)
        rw [Bool.not_eq_true, hdrDel_isSome] at this
        exact Option.not_isSome_iff_eq_none.mp (by rw [this]; exact
          Bool.false_ne_true)
      · exact Option.noConfusion hnone
    · intro hall
      rw [if_pos]
      rw [List.length_eq_zero, List.filter_eq_nil_iff]
      intro r hr
      obtain ⟨h, hmem, rfl⟩ := List.mem_map.mp hr
      rw [Bool.not_eq_true, hdrDel_isSome]
      rw [hall h hmem]
      rfl
  · intro out hout
    unfold fhcRemove at hout
    split at hout
    · exact Option.noConfusion hout
    · rename_i hnz
      obtain rfl := Option.some.inj hout
      rw [hzip]
      refine ⟨by simp, ?_, ?_⟩
      · intro n h hsome
        have hfind : hdrGet h key = none ↔
            h.find? (fun c => c.1 = key) = none := by
          unfold hdrGet
          exact Option.map_eq_none
        constructor
        · intro hnone
          rw [List.getElem?_map, hsome]
          have hdel : hdrDel h key = none := by
            unfold hdrDel
            rw [if_neg]
            rw [hfind.mp hnone]
            exact Bool.false_ne_true
          simp [hdel]
        · intro hnd
          by_cases hpres : hdrGet h key = none
          · refine ⟨h, ?_, hpres, fun k _ => rfl⟩
            have hdel : hdrDel h key = none := by
              unfold hdrDel
              rw [if_neg]
              rw [hfind.mp hpres]
              exact Bool.false_ne_true
            rw [List.getElem?_map, hsome]
            simp [hdel]
          · have hiss : (h.find? (fun c => c.1 = key)).isSome := by
              rw [Option.isSome_iff_ne_none]
              intro hcon
              exact hpres (hfind.mpr hcon)
            have hdel : hdrDel h key =
                some (h.eraseP (fun c => c.1 = key)) := by
              unfold hdrDel
              rw [if_pos hiss]
            refine ⟨h.eraseP (fun c => c.1 = key), ?_, ?_, ?_⟩
            · rw [List.getElem?_map, hsome]
              simp [hdel]
            · unfold hdrGet
              rw [find?_eraseP_self h key hnd]
              rfl
            · intro k hk
              unfold hdrGet
              rw [find?_eraseP_ne h key k hk]
      · by_contra hnot
        push_neg at hnot
        apply hnz
        rw [List.length_eq_zero, List.filter_eq_nil_iff]
        intro r hr
        obtain ⟨h, hmem, rfl⟩ := List.mem_map.mp hr
        rw [Bool.not_eq_true, hdrDel_isSome]
        exact Bool.eq_false_iff.mpr (hnot h hmem)

/-- Witness for C8 at a concrete collection: key `A` is present only in the
first of two headers, and `remove` succeeds, returning a same-length list. -/
theorem claim_C8_header_remove_witness :
    ([[((['B'] : Str), (2 : Int))], [(['B'], 3)]] : List Header).length =
      ([[((['A'] : Str), (1 : Int)), (['B'], 2)], [(['B'], 3)]] :
        List Header).length :=
  ((claim_C8_header_remove
      [[((['A'] : Str), (1 : Int)), (['B'], 2)], [(['B'], 3)]] ['A']).2
    [[((['B'] : Str), (2 : Int))], [(['B'], 3)]] (by decide)).1

/-- C3 is false as stated: at equal version 1, an extension named `zzzz`
receives adjusted name `zzzzz` and sorts after the unnamed extension (whose
adjusted name is `zzzz`), so unnamed extensions do not always sort last. -/
theorem claim_C3_counterexample :
    keyLt
      (fits_ext_comp_key ⟨HDUKind.image, none, some 1, none⟩)
      (fits_ext_comp_key
        ⟨HDUKind.image, some ['z', 'z', 'z', 'z'], some 1, none⟩) = true
    ∧ keyLt
      (fits_ext_comp_key
        ⟨HDUKind.image, some ['z', 'z', 'z', 'z'], some 1, none⟩)
      (fits_ext_comp_key ⟨HDUKind.image, none, some 1, none⟩) = false := by
  decide

theorem strLt_SCI_z (rest : Str) : strLt SCI ('z' :: rest) = true := by
  simp [SCI, strLt]

theorem verKey_pos_of_ok (v : Option Int) (hok : match v with
    | none => True
    | some w => w = -1 ∨ (1 ≤ w ∧ w < 2 ^ 32 - 1)) : 1 ≤ verKey v := by
  cases v with
  | none => simp only [verKey]; omega
  | some w =>
      rcases hok with h | h
      · simp only [verKey]; rw [if_pos h]; omega
      · simp only [verKey]; rw [if_neg (by omega)]; exact h.1

/-- C3 amended: over `EXTVER` values in the data model's domain (positive
and below the `2**32-1` sentinel, with `-1`/missing meaning "unversioned"),
the comparison key places the primary HDU before every other extension, and
orders the rest by `(version, adjusted name)`: `SCI` sorts before any other
name of the same version, versioned extensions sort before unversioned
ones, equal versions break lexicographically on the raw name for named
non-`SCI` extensions, and a named extension sorts before an unnamed one of
the same version exactly when its name is lexicographically below `zzz`
(so names above `zzz` sort after unnamed ones — the `z`-prefix artifact
refuting the claim as stated). -/
theorem claim_C3_amended (e1 e2 : HDUm) :
    (e1.kind = HDUKind.primary → ¬ e2.kind = HDUKind.primary → extverOK e2 →
      keyLt (fits_ext_comp_key e1) (fits_ext_comp_key e2) = true)
    ∧ (¬ e1.kind = HDUKind.primary → ¬ e2.kind = HDUKind.primary →
       ∀ v1 v2 : Int, e1.extver = some v1 → e2.extver = some v2 →
       1 ≤ v1 → v1 < v2 → v2 < 2 ^ 32 - 1 →
       keyLt (fits_ext_comp_key e1) (fits_ext_comp_key e2) = true)
    ∧ (¬ e1.kind = HDUKind.primary → ¬ e2.kind = HDUKind.primary →
       e1.extver = e2.extver → e1.extname = some SCI →
       ¬ e2.extname = some SCI →
       keyLt (fits_ext_comp_key e1) (fits_ext_comp_key e2) = true)
    ∧ (¬ e1.kind = HDUKind.primary → ¬ e2.kind = HDUKind.primary →
       ∀ v1 : Int, e1.extver = some v1 → 1 ≤ v1 → v1 < 2 ^ 32 - 1 →
       (e2.extver = none ∨ e2.extver = some (-1)) →
       keyLt (fits_ext_comp_key e1) (fits_ext_comp_key e2) = true)
    ∧ (¬ e1.kind = HDUKind.primary → ¬ e2.kind = HDUKind.primary →
       e1.extver = e2.extver →
       ∀ n1 n2 : Str, e1.extname = some n1 → e2.extname = some n2 →
       ¬ n1 = SCI → ¬ n2 = SCI →
       keyLt (fits_ext_comp_key e1) (fits_ext_comp_key e2) = strLt n1 n2)
    ∧ (¬ e1.kind = HDUKind.primary → ¬ e2.kind = HDUKind.primary →
       e1.extver = e2.extver →
       ∀ n1 : Str, e1.extname = some n1 → e2.extname = none →
       ¬ n1 = SCI →
       keyLt (fits_ext_comp_key e1) (fits_ext_comp_key e2) =
         strLt n1 ['z', 'z', 'z']) := by
  refine ⟨?_, ?_, ?_, ?_, ?_, ?_⟩
  · intro h1 h2 hok
    unfold fits_ext_comp_key
    rw [if_pos h1, if_neg h2]
    have := verKey_pos_of_ok e2.extver (by unfold extverOK at hok; exact hok)
    simp only [keyLt]
    rw [Bool.or_eq_true, decide_eq_true_eq]
    left
    omega
  · intro h1 h2 v1 v2 hv1 hv2 hp1 hlt hup
    unfold fits_ext_comp_key
    rw [if_neg h1, if_neg h2]
    have k1 : verKey e1.extver = v1 := by
      rw [hv1]; simp only [verKey]; rw [if_neg (by omega)]
    have k2 : verKey e2.extver = v2 := by
      rw [hv2]; simp only [verKey]; rw [if_neg (by omega)]
    simp only [keyLt, k1, k2]
    rw [Bool.or_eq_true, decide_eq_true_eq]
    left
    exact hlt
  · intro h1 h2 hvv hn1 hn2
    unfold fits_ext_comp_key
    rw [if_neg h1, if_neg h2, hvv]
    have hz1 : zAdjName e1.extname = SCI := by
      rw [hn1]; simp [zAdjName]
    have hz2 : ∃ rest, zAdjName e2.extname = 'z' :: rest := by
      cases hne : e2.extname with
      | none => exact ⟨['z', 'z', 'z'], rfl⟩
      | some n =>
          refine ⟨n, ?_⟩
          simp only [zAdjName]
          rw [if_neg (by rw [hne] at hn2; intro hc; exact hn2 (by rw [hc]))]
    obtain ⟨rest, hz2⟩ := hz2
    simp only [keyLt, hz1, hz2]
    rw [Bool.or_eq_true, Bool.and_eq_true, decide_eq_true_eq, decide_eq_true_eq]
    right
    exact ⟨trivial, strLt_SCI_z rest⟩
  · intro h1 h2 v1 hv1 hp1 hup hv2
    unfold fits_ext_comp_key
    rw [if_neg h1, if_neg h2]
    have k1 : verKey e1.extver = v1 := by
      rw [hv1]; simp only [verKey]; rw [if_neg (by omega)]
    have k2 : verKey e2.extver = 2 ^ 32 - 1 := by
      rcases hv2 with h | h
      · rw [h]; rfl
      · rw [h]; simp [verKey]
    simp only [keyLt, k1, k2]
    rw [Bool.or_eq_true, decide_eq_true_eq]
    left
    omega
  · intro h1 h2 hvv n1 n2 hn1 hn2 hs1 hs2
    unfold fits_ext_comp_key
    rw [if_neg h1, if_neg h2, hvv]
    have hz1 : zAdjName e1.extname = 'z' :: n1 := by
      rw [hn1]; simp only [zAdjName]; rw [if_neg hs1]
    have hz2 : zAdjName e2.extname = 'z' :: n2 := by
      rw [hn2]; simp only [zAdjName]; rw [if_neg hs2]
    simp only [keyLt, hz1, hz2, strLt]
    simp
  · intro h1 h2 hvv n1 hn1 hn2 hs1
    unfold fits_ext_comp_key
    rw [if_neg h1, if_neg h2, hvv]
    have hz1 : zAdjName e1.extname = 'z' :: n1 := by
      rw [hn1]; simp only [zAdjName]; rw [if_neg hs1]
    have hz2 : zAdjName e2.extname = ['z', 'z', 'z', 'z'] := by
      rw [hn2]; rfl
    simp only [keyLt, hz1, hz2, strLt]
    simp

/-- Witness for the amended C3: a versioned `SCI` extension sorts before a
`VAR` extension of the same version. -/
theorem claim_C3_amended_witness :
    keyLt
      (fits_ext_comp_key ⟨HDUKind.image, some SCI, some 1, none⟩)
      (fits_ext_comp_key
        ⟨HDUKind.image, some ['V', 'A', 'R'], some 1, none⟩) = true :=
  (claim_C3_amended ⟨HDUKind.image, some SCI, some 1, none⟩
      ⟨HDUKind.image, some ['V', 'A', 'R'], some 1, none⟩).2.2.1
    (by decide) (by decide) rfl rfl (by decide)

theorem crop2d_getElem (a : Mat) (x1 y1 x2 y2 i j : Nat)
    (hi : y1 + i ≤ y2) (hj : x1 + j ≤ x2) :
    ((crop2d a x1 y1 x2 y2)[i]?.bind (fun row => row[j]?)) =
      (a[y1 + i]?.bind (fun row => row[x1 + j]?)) := by
  unfold crop2d sliceRange
  rw [List.getElem?_map]
  rw [List.getElem?_take_of_lt (by omega), List.getElem?_drop]
  cases hrow : a[y1 + i]? with
  | none => rfl
  | some row =>
      simp only [Option.map_some', Option.some_bind]
      rw [List.getElem?_take_of_lt (by omega), List.getElem?_drop]

theorem crop2d_length (a : Mat) (x1 y1 x2 y2 : Nat)
    (h1 : y1 ≤ y2) (h2 : y2 < a.length) :
    (crop2d a x1 y1 x2 y2).length = y2 + 1 - y1 := by
  unfold crop2d sliceRange
  rw [List.length_map, List.length_take, List.length_drop]
  omega

theorem sliceRange_length {α : Type} (row : List α) (x1 x2 : Nat)
    (h1 : x1 ≤ x2) (h2 : x2 < row.length) :
    (sliceRange row x1 (x2 + 1)).length = x2 + 1 - x1 := by
  unfold sliceRange
  rw [List.length_take, List.length_drop]
  omega

theorem cropAux_error_eq (shape : Nat × Nat) (o : AuxObj)
    (x1 y1 x2 y2 : Nat) (e : Str)
    (h : cropAux shape o x1 y1 x2 y2 = Except.error e) :
    e = NotImplementedErrorS := by
  cases o with
  | arr a =>
      simp only [cropAux] at h
      by_cases hm : mShape a = shape
      · rw [if_pos hm] at h
        exact (Except.error.inj h).symm
      · rw [if_neg hm] at h
        exact Except.noConfusion h
  | ndd a =>
      simp only [cropAux] at h
      by_cases hm : mShape a = shape
      · rw [if_pos hm] at h
        exact Except.noConfusion h
      · rw [if_neg hm] at h
        exact Except.noConfusion h
  | tbl r =>
      simp only [cropAux] at h
      exact Except.noConfusion h

/-- Without a matching plain-ndarray auxiliary the auxiliary loop
succeeds, cropping matching NDData-like objects and nothing else. -/
theorem cropOthers_ok (shape : Nat × Nat)
    (others : List (Str × AuxObj)) (x1 y1 x2 y2 : Nat)
    (h : ∀ p ∈ others, ∀ a, p.2 = AuxObj.arr a → ¬ mShape a = shape) :
    cropOthers shape others x1 y1 x2 y2 =
      Except.ok (others.map (fun p =>
        (p.1, cropAuxOk shape p.2 x1 y1 x2 y2))) := by
  induction others with
  | nil => rfl
  | cons p rest ih =>
      have hp : cropAux shape p.2 x1 y1 x2 y2 =
          Except.ok (cropAuxOk shape p.2 x1 y1 x2 y2) := by
        cases ho : p.2 with
        | arr a =>
            have hne := h p (List.mem_cons_self _ _) a ho
            simp only [cropAux, cropAuxOk]
            rw [if_neg hne]
        | ndd a =>
            simp only [cropAux, cropAuxOk]
            by_cases hm : mShape a = shape
            · rw [if_pos hm, if_pos hm]
            · rw [if_neg hm, if_neg hm]
        | tbl r => rfl
      simp only [cropOthers, hp,
        ih (fun q hq => h q (List.mem_cons_of_mem _ hq)), List.map_cons]

theorem cropOthers_error_eq (shape : Nat × Nat)
    (others : List (Str × AuxObj)) (x1 y1 x2 y2 : Nat) :
    ∀ e, cropOthers shape others x1 y1 x2 y2 = Except.error e →
      e = NotImplementedErrorS := by
  induction others with
  | nil =>
      intro e h
      exact Except.noConfusion h
  | cons p rest ih =>
      intro e h
      cases hp : cropAux shape p.2 x1 y1 x2 y2 with
      | error e2 =>
          have heq : cropOthers shape (p :: rest) x1 y1 x2 y2 =
              Except.error e2 := by
            simp only [cropOthers, hp]
          rw [heq] at h
          rw [← Except.error.inj h]
          exact cropAux_error_eq shape p.2 x1 y1 x2 y2 e2 hp
      | ok o2 =>
          cases hr : cropOthers shape rest x1 y1 x2 y2 with
          | error e2 =>
              have heq : cropOthers shape (p :: rest) x1 y1 x2 y2 =
                  Except.error e2 := by
                simp only [cropOthers, hp, hr]
              rw [heq] at h
              rw [← Except.error.inj h]
              exact ih e2 hr
          | ok rest2 =>
              have heq : cropOthers shape (p :: rest) x1 y1 x2 y2 =
                  Except.ok ((p.1, o2) :: rest2) := by
                simp only [cropOthers, hp, hr]
              rw [heq] at h
              exact Except.noConfusion h

/-- A matching plain-ndarray auxiliary anywhere in the loop aborts it
with the uncaught `NotImplementedError`. -/
theorem cropOthers_error (shape : Nat × Nat)
    (others : List (Str × AuxObj)) (x1 y1 x2 y2 : Nat)
    (h : ∃ p ∈ others, ∃ a, p.2 = AuxObj.arr a ∧ mShape a = shape) :
    cropOthers shape others x1 y1 x2 y2 =
      Except.error NotImplementedErrorS := by
  induction others with
  | nil =>
      obtain ⟨p, hp, -⟩ := h
      exact absurd hp (List.not_mem_nil p)
  | cons q rest ih =>
      obtain ⟨p, hp, a, ha, hm⟩ := h
      rcases List.mem_cons.mp hp with rfl | hp2
      · have hbadp : cropAux shape p.2 x1 y1 x2 y2 =
            Except.error NotImplementedErrorS := by
          rw [ha]
          simp only [cropAux]
          rw [if_pos hm]
        simp only [cropOthers, hbadp]
      · cases hq : cropAux shape q.2 x1 y1 x2 y2 with
        | error e =>
            have he := cropAux_error_eq shape q.2 x1 y1 x2 y2 e hq
            simp only [cropOthers, hq, he]
        | ok o2 =>
            have hrest := ih ⟨p, hp2, a, ha, hm⟩
            simp only [cropOthers, hq, hrest]

theorem crop_impl_ok (nds : List NDm) (x1 y1 x2 y2 : Nat)
    (h : ∀ nd ∈ nds, hasBadAux nd = false) :
    crop_impl nds x1 y1 x2 y2 = Except.ok (nds.map (fun nd =>
      { crop_nd nd x1 y1 x2 y2 with
        other := nd.other.map (fun p =>
          (p.1, cropAuxOk (mShape nd.data) p.2 x1 y1 x2 y2)) })) := by
  induction nds with
  | nil => rfl
  | cons nd rest ih =>
      have hgood : ∀ p ∈ nd.other, ∀ a, p.2 = AuxObj.arr a →
          ¬ mShape a = mShape nd.data := by
        intro p hp a ha hm
        have hb := h nd (List.mem_cons_self _ _)
        unfold hasBadAux at hb
        rw [List.any_eq_false] at hb
        have hcp := hb p hp
        rw [Bool.not_eq_true, ha] at hcp
        simp only [decide_eq_false_iff_not] at hcp
        exact hcp hm
      simp only [crop_impl,
        cropOthers_ok (mShape nd.data) nd.other x1 y1 x2 y2 hgood,
        ih (fun q hq => h q (List.mem_cons_of_mem _ hq)), List.map_cons]

theorem crop_impl_error (nds : List NDm) (x1 y1 x2 y2 : Nat)
    (h : ∃ nd ∈ nds, hasBadAux nd = true) :
    crop_impl nds x1 y1 x2 y2 = Except.error NotImplementedErrorS := by
  induction nds with
  | nil =>
      obtain ⟨nd, hnd, -⟩ := h
      exact absurd hnd (List.not_mem_nil nd)
  | cons nd rest ih =>
      obtain ⟨q, hq, hbad⟩ := h
      rcases List.mem_cons.mp hq with rfl | hq2
      · have hex : ∃ p ∈ q.other, ∃ a, p.2 = AuxObj.arr a ∧
            mShape a = mShape q.data := by
          unfold hasBadAux at hbad
          rw [List.any_eq_true] at hbad
          obtain ⟨p, hp, hcond⟩ := hbad
          cases ho : p.2 with
          | arr a =>
              rw [ho] at hcond
              exact ⟨p, hp, a, ho, by simpa using hcond⟩
          | ndd a =>
              rw [ho] at hcond
              exact Bool.noConfusion hcond
          | tbl r =>
              rw [ho] at hcond
              exact Bool.noConfusion hcond
        simp only [crop_impl,
          cropOthers_error (mShape q.data) q.other x1 y1 x2 y2 hex]
      · cases ho : cropOthers (mShape nd.data) nd.other x1 y1 x2 y2 with
        | error e =>
            have he := cropOthers_error_eq (mShape nd.data) nd.other
              x1 y1 x2 y2 e ho
            simp only [crop_impl, ho, he]
        | ok o2 =>
            simp only [crop_impl, ho, ih ⟨q, hq2, hbad⟩]

/-- C5 (code bug): `crop(x1, y1, x2, y2)` replaces the primary,
uncertainty, and mask arrays of each unit with the inclusive sub-array
`[y1:y2+1, x1:x2+1]` (entry `(i, j)` is the original `(y1+i, x1+j)`,
dimensions `(y2+1-y1, x2+1-x1)` in bounds) and crops every shape-matching
NDData-like auxiliary the same way, leaving shape-mismatched and
shapeless (table) auxiliaries untouched; but for a shape-matching plain
`np.ndarray` auxiliary — a reachable class: `windowedOp` stores ndarrays
in `meta[other]` (line 945) and `write_fits` expects them (line 831) —
`_crop_nd` slices the `.data` memoryview of the array, and the resulting
`NotImplementedError`, uncaught by the `except AttributeError` at line
512, aborts the crop instead of cropping the auxiliary as the claim
asserts. -/
theorem claim_C5_crop (nds : List NDm) (x1 y1 x2 y2 : Nat) :
    ((∀ nd ∈ nds, hasBadAux nd = false) →
      crop_impl nds x1 y1 x2 y2 = Except.ok (nds.map (fun nd =>
        { crop_nd nd x1 y1 x2 y2 with
          other := nd.other.map (fun p =>
            (p.1, cropAuxOk (mShape nd.data) p.2 x1 y1 x2 y2)) })))
    ∧ ((∃ nd ∈ nds, hasBadAux nd = true) →
      crop_impl nds x1 y1 x2 y2 = Except.error NotImplementedErrorS)
    ∧ (∀ (shape : Nat × Nat) (a : Mat), mShape a = shape →
        cropAux shape (AuxObj.arr a) x1 y1 x2 y2 =
          Except.error NotImplementedErrorS)
    ∧ (∀ (shape : Nat × Nat) (a : Mat), mShape a = shape →
        cropAuxOk shape (AuxObj.ndd a) x1 y1 x2 y2 =
          AuxObj.ndd (crop2d a x1 y1 x2 y2))
    ∧ (∀ (shape : Nat × Nat) (a : Mat), ¬ mShape a = shape →
        cropAuxOk shape (AuxObj.ndd a) x1 y1 x2 y2 = AuxObj.ndd a)
    ∧ (∀ (shape : Nat × Nat) (a : Mat), ¬ mShape a = shape →
        cropAuxOk shape (AuxObj.arr a) x1 y1 x2 y2 = AuxObj.arr a)
    ∧ (∀ (shape : Nat × Nat) (rows : List Int),
        cropAuxOk shape (AuxObj.tbl rows) x1 y1 x2 y2 = AuxObj.tbl rows)
    ∧ (∀ (a : Mat) (i j : Nat), y1 + i ≤ y2 → x1 + j ≤ x2 →
        ((crop2d a x1 y1 x2 y2)[i]?.bind (fun row => row[j]?)) =
          (a[y1 + i]?.bind (fun row => row[x1 + j]?)))
    ∧ (∀ (a : Mat), y1 ≤ y2 → y2 < a.length →
        (crop2d a x1 y1 x2 y2).length = y2 + 1 - y1)
    ∧ (∀ (a : Mat) (i : Nat) (row : List Int),
        (crop2d a x1 y1 x2 y2)[i]? = some row → x1 ≤ x2 →
        (∀ r ∈ a, x2 < r.length) → row.length = x2 + 1 - x1) := by
  refine ⟨crop_impl_ok nds x1 y1 x2 y2, crop_impl_error nds x1 y1 x2 y2,
    ?_, ?_, ?_, ?_, ?_, ?_, ?_, ?_⟩
  · intro shape a heq
    simp only [cropAux]
    rw [if_pos heq]
  · intro shape a heq
    simp only [cropAuxOk]
    rw [if_pos heq]
  · intro shape a hne
    simp only [cropAuxOk]
    rw [if_neg hne]
  · intro shape a hne
    rfl
  · intro shape rows
    rfl
  · intro a i j hi hj
    exact crop2d_getElem a x1 y1 x2 y2 i j hi hj
  · intro a h1 h2
    exact crop2d_length a x1 y1 x2 y2 h1 h2
  · intro a i row hrow hx hall
    unfold crop2d sliceRange at hrow
    rw [List.getElem?_map] at hrow
    cases htake : ((a.drop y1).take (y2 + 1 - y1))[i]? with
    | none =>
        rw [htake] at hrow
        exact Option.noConfusion hrow
    | some r =>
        rw [htake] at hrow
        have hmem : r ∈ a := by
          have h1 : r ∈ (a.drop y1).take (y2 + 1 - y1) :=
            List.getElem?_mem htake
          exact List.mem_of_mem_drop (List.mem_of_mem_take h1)
        obtain rfl := Option.some.inj hrow
        rw [List.length_take, List.length_drop]
        have := hall r hmem
        omega

/-- Witness for C5 at concrete units: a unit with a matching NDData-like
auxiliary and a table crops cleanly (entry-level values shown), while a
unit with a matching plain-ndarray auxiliary makes crop fail with
`NotImplementedError`. -/
theorem claim_C5_crop_witness :
    (crop_impl [⟨[[1, 2], [3, 4]], some [[5, 6], [7, 8]], none,
        [(['A'], AuxObj.ndd [[9, 8], [7, 6]]), (['T'], AuxObj.tbl [1])]⟩]
        0 0 0 0 =
      Except.ok [⟨[[1]], some [[5]], none,
        [(['A'], AuxObj.ndd [[9]]), (['T'], AuxObj.tbl [1])]⟩])
    ∧ crop_impl [⟨[[1, 2], [3, 4]], none, none,
        [(['B'], AuxObj.arr [[9, 8], [7, 6]])]⟩] 0 0 0 0 =
      Except.error NotImplementedErrorS :=
  ⟨((claim_C5_crop [⟨[[1, 2], [3, 4]], some [[5, 6], [7, 8]], none,
        [(['A'], AuxObj.ndd [[9, 8], [7, 6]]), (['T'], AuxObj.tbl [1])]⟩]
        0 0 0 0).1 (by decide)).trans
      (congrArg Except.ok (by decide)),
   (claim_C5_crop [⟨[[1, 2], [3, 4]], none, none,
        [(['B'], AuxObj.arr [[9, 8], [7, 6]])]⟩] 0 0 0 0).2.1
      ⟨⟨[[1, 2], [3, 4]], none, none,
        [(['B'], AuxObj.arr [[9, 8], [7, 6]])]⟩,
        List.mem_cons_self _ _, by decide⟩⟩

theorem ticks_cover (axis step x : Nat) (hstep : 0 < step) (hx : x < axis) :
    ∃ t ∈ ticks axis step, (t.1 ≤ x ∧ x < t.2) ∧
      ∀ t2 ∈ ticks axis step, t2.1 ≤ x → x < t2.2 → t2 = t := by
  have hmod := Nat.div_add_mod x step
  have hmlt : x % step < step := Nat.mod_lt x hstep
  have hcomm : step * (x / step) = x / step * step := Nat.mul_comm step (x / step)
  refine ⟨(x / step * step, x / step * step + step), ?_, ⟨by omega, by omega⟩, ?_⟩
  · unfold ticks
    rw [List.mem_map]
    refine ⟨x / step, List.mem_range.mpr ?_, rfl⟩
    rw [Nat.lt_iff_add_one_le, Nat.le_div_iff_mul_le hstep]
    have hdist : (x / step + 1) * step = x / step * step + step := by ring
    omega
  · intro t2 ht2 hlo hhi
    unfold ticks at ht2
    rw [List.mem_map] at ht2
    obtain ⟨j, _, rfl⟩ := ht2
    simp only at hlo hhi ⊢
    have hj : j = x / step := by
      have h1 : j ≤ x / step := (Nat.le_div_iff_mul_le hstep).mpr hlo
      have h2 : x / step < j + 1 := by
        rw [Nat.div_lt_iff_lt_mul hstep]
        have hdist : (j + 1) * step = j * step + step := by ring
        omega
      omega
    rw [hj]

theorem cartProduct_mem_cons {α : Type} (l : List α) (ls : List (List α))
    (b : List α) :
    b ∈ cartProduct (l :: ls) ↔
      ∃ x ∈ l, ∃ rest ∈ cartProduct ls, b = x :: rest := by
  show b ∈ l.flatMap (fun x => (cartProduct ls).map (fun rest => x :: rest)) ↔ _
  rw [List.mem_flatMap]
  constructor
  · rintro ⟨x, hx, hb⟩
    rw [List.mem_map] at hb
    obtain ⟨rest, hrest, rfl⟩ := hb
    exact ⟨x, hx, rest, hrest, rfl⟩
  · rintro ⟨x, hx, rest, hrest, rfl⟩
    exact ⟨x, hx, List.mem_map.mpr ⟨rest, hrest, rfl⟩⟩

theorem boxes_cover (shape : List Nat) :
    ∀ (kernel idx : List Nat),
    shape.length = kernel.length →
    (∀ k ∈ kernel, 0 < k) →
    inShapeb shape idx = true →
    ∃ b ∈ cartProduct (List.zipWith ticks shape kernel),
      inBoxb b idx = true ∧
      ∀ b2 ∈ cartProduct (List.zipWith ticks shape kernel),
        inBoxb b2 idx = true → b2 = b := by
  induction shape with
  | nil =>
      intro kernel idx hlen hk hsh
      cases idx with
      | nil =>
          refine ⟨[], ?_, rfl, ?_⟩
          · cases kernel with
            | nil => exact List.mem_singleton.mpr rfl
            | cons k kt => exact absurd hlen (by simp)
          · intro b2 hb2 _
            cases kernel with
            | nil => simpa [cartProduct] using hb2
            | cons k kt => exact absurd hlen (by simp)
      | cons x xt => exact absurd hsh (by simp [inShapeb])
  | cons s st ih =>
      intro kernel idx hlen hk hsh
      cases kernel with
      | nil => exact absurd hlen (by simp)
      | cons k kt =>
          cases idx with
          | nil => exact absurd hsh (by simp [inShapeb])
          | cons x xt =>
              have hx : x < s ∧ inShapeb st xt = true := by
                have h := hsh
                rw [inShapeb, Bool.and_eq_true, decide_eq_true_eq] at h
                exact h
              obtain ⟨t, htm, htc, htu⟩ :=
                ticks_cover s k x (hk k (List.mem_cons_self k kt)) hx.1
              obtain ⟨b, hbm, hbc, hbu⟩ := ih kt xt (by simpa using hlen)
                (fun k2 hk2 => hk (by exact k2) (List.mem_cons_of_mem k hk2))
                hx.2
              rw [List.zipWith_cons_cons]
              refine ⟨t :: b, (cartProduct_mem_cons _ _ _).mpr
                ⟨t, htm, b, hbm, rfl⟩, ?_, ?_⟩
              · rw [inBoxb, Bool.and_eq_true, Bool.and_eq_true]
                exact ⟨⟨by simpa using htc.1, by simpa using htc.2⟩, hbc⟩
              · intro b2 hb2 hin
                obtain ⟨t2, ht2, rest2, hrest2, rfl⟩ :=
                  (cartProduct_mem_cons _ _ _).mp hb2
                rw [inBoxb, Bool.and_eq_true, Bool.and_eq_true] at hin
                rw [htu t2 ht2 (by simpa using hin.1.1) (by simpa using hin.1.2),
                  hbu rest2 hrest2 hin.2]

theorem foldl_setSection_not_mem
    (boxes : List (List (Nat × Nat)))
    (outFor : List (Nat × Nat) → (List Nat → Int))
    (init : List Nat → Int) (idx : List Nat)
    (h : ∀ b ∈ boxes, ¬ inBoxb b idx = true) :
    (boxes.foldl (fun res box => setSection res box (outFor box)) init) idx =
      init idx := by
  induction boxes generalizing init with
  | nil => rfl
  | cons b rest ih =>
      rw [List.foldl_cons, ih]
      · unfold setSection
        rw [if_neg (h b (List.mem_cons_self b rest))]
      · intro b2 hb2
        exact h b2 (List.mem_cons_of_mem b hb2)

theorem foldl_setSection_covered
    (boxes : List (List (Nat × Nat)))
    (outFor : List (Nat × Nat) → (List Nat → Int))
    (init : List Nat → Int) (idx : List Nat) (target : Int)
    (hcov : ∃ b ∈ boxes, inBoxb b idx = true)
    (hval : ∀ b ∈ boxes, inBoxb b idx = true →
      outFor b (List.zipWith (fun x t => x - t.1) idx b) = target) :
    (boxes.foldl (fun res box => setSection res box (outFor box)) init) idx =
      target := by
  induction boxes generalizing init with
  | nil => simp at hcov
  | cons b rest ih =>
      rw [List.foldl_cons]
      by_cases hrest : ∃ b2 ∈ rest, inBoxb b2 idx = true
      · exact ih (setSection init b (outFor b)) hrest
          (fun b2 hb2 hin => hval b2 (List.mem_cons_of_mem b hb2) hin)
      · push_neg at hrest
        rw [foldl_setSection_not_mem rest outFor _ idx
          (fun b2 hb2 => by simpa using hrest b2 hb2)]
        obtain ⟨bc, hbc, hbin⟩ := hcov
        have hb : inBoxb b idx = true := by
          rcases List.mem_cons.mp hbc with rfl | hmem
          · exact hbin
          · exact absurd hbin (by simpa using hrest bc hmem)
        unfold setSection
        rw [if_pos hb]
        exact hval b (List.mem_cons_self b rest) hb

theorem window_add_sub (box : List (Nat × Nat)) :
    ∀ (idx : List Nat), inBoxb box idx = true →
    List.zipWith (fun s l => s + l) (box.map Prod.fst)
      (List.zipWith (fun x t => x - t.1) idx box) = idx := by
  induction box with
  | nil =>
      intro idx h
      cases idx with
      | nil => rfl
      | cons x xt => exact absurd h (by simp [inBoxb])
  | cons t bt ih =>
      intro idx h
      cases idx with
      | nil => exact absurd h (by simp [inBoxb])
      | cons x xt =>
          rw [inBoxb, Bool.and_eq_true, Bool.and_eq_true] at h
          have hle : t.1 ≤ x := by simpa using h.1.1
          simp only [List.map_cons, List.zipWith_cons_cons]
          rw [ih xt h.2]
          congr 1
          omega

/-- C6: with a positive block shape of the array's rank, `generate_boxes`
produces axis-aligned blocks such that every in-shape index lies in exactly
one block (so blocks are non-overlapping and the trailing partial block
covers the remainder of a shape not divisible by the block shape), and
applying the identity function through `windowedOp` reproduces the input
array exactly at every in-shape index, for an arbitrary (uninitialized)
output buffer. -/
theorem claim_C6_chunked_identity (shape kernel : List Nat) (a : ArrF)
    (init : List Nat → Int)
    (hsh : a.shape = shape)
    (hlen : shape.length = kernel.length)
    (hk : ∀ k ∈ kernel, 0 < k) :
    ∃ boxes, generate_boxes shape kernel = Except.ok boxes
      ∧ (∀ idx, inShapeb shape idx = true →
          ∃ b ∈ boxes, inBoxb b idx = true ∧
            ∀ b2 ∈ boxes, inBoxb b2 idx = true → b2 = b)
      ∧ (∃ res, windowedOp (fun ws => ws.headI) [a] kernel none init =
            Except.ok res ∧
            ∀ idx, inShapeb shape idx = true → res idx = a.val idx) := by
  have hgen : generate_boxes shape kernel =
      Except.ok (cartProduct (List.zipWith ticks shape kernel)) := by
    unfold generate_boxes
    rw [if_neg (by simpa using hlen)]
    rw [if_neg (by
      simp only [Bool.not_eq_true, List.any_eq_false, decide_eq_true_eq]
      intro k hkm
      have := hk k hkm
      omega)]
  have hres : resolveShape [a] none = Except.ok a.shape := by
    show resolveShapeNone [a] = Except.ok a.shape
    unfold resolveShapeNone
    have hd : (([a] : List ArrF).map (fun x => x.shape)).dedup.length = 1 := by
      rw [List.map_cons, List.map_nil, List.dedup_cons_of_not_mem (by simp),
        List.dedup_nil]
      rfl
    rw [if_neg (by omega)]
  have hwop : windowedOp (fun ws => ws.headI) [a] kernel none init =
      Except.ok ((cartProduct (List.zipWith ticks shape kernel)).foldl
        (fun res box =>
          setSection res box (window a (box.map (fun t => t.1)))) init) := by
    unfold windowedOp
    simp only [hres, hsh, hgen, List.map_cons, List.map_nil, List.headI]
  refine ⟨cartProduct (List.zipWith ticks shape kernel), hgen, ?_, ?_⟩
  · intro idx hidx
    exact boxes_cover shape kernel idx hlen hk hidx
  · refine ⟨_, hwop, ?_⟩
    intro idx hidx
    obtain ⟨b, hbm, hbin, _⟩ := boxes_cover shape kernel idx hlen hk hidx
    exact foldl_setSection_covered _ _ init idx (a.val idx) ⟨b, hbm, hbin⟩
      (fun b2 _ hin => by
        unfold window
        rw [window_add_sub b2 idx hin])

/-- Witness for C6 on shape `[3]` with block shape `[2]` (a trailing
partial block of width 1). -/
theorem claim_C6_chunked_identity_witness :
    ∃ boxes, generate_boxes [3] [2] = Except.ok boxes
      ∧ (∀ idx, inShapeb [3] idx = true →
          ∃ b ∈ boxes, inBoxb b idx = true ∧
            ∀ b2 ∈ boxes, inBoxb b2 idx = true → b2 = b)
      ∧ (∃ res, windowedOp (fun ws => ws.headI)
            [⟨[3], fun idx => (idx.headI : Int)⟩] [2] none (fun _ => 0) =
              Except.ok res ∧
            ∀ idx, inShapeb [3] idx = true →
              res idx = (⟨[3], fun idx => (idx.headI : Int)⟩ : ArrF).val idx) :=
  claim_C6_chunked_identity [3] [2] ⟨[3], fun idx => (idx.headI : Int)⟩
    (fun _ => 0) rfl rfl (by decide)

theorem two_mem_one_lt_length {α : Type} (l : List α) (a b : α)
    (ha : a ∈ l) (hb : b ∈ l) (hne : ¬ a = b) : 1 < l.length := by
  cases l with
  | nil => exact absurd ha (List.not_mem_nil a)
  | cons x t =>
      cases t with
      | nil =>
          rw [List.mem_singleton] at ha hb
          exact absurd (ha.trans hb.symm) hne
      | cons y t2 => simp [Nat.lt_iff_add_one_le]

/-- C10: `windowedOp` called without an explicit target shape fails with
`ValueError` when the input units do not all share the same shape; the
error is raised in the shape-resolution step, before the result buffer is
created or any block is processed (the inputs, being values, are
untouched). -/
theorem claim_C10_shape_mismatch
    (func : List (List Nat → Int) → (List Nat → Int))
    (sequence : List ArrF) (kernel : List Nat) (init : List Nat → Int)
    (a b : ArrF) (ha : a ∈ sequence) (hb : b ∈ sequence)
    (hne : ¬ a.shape = b.shape) :
    windowedOp func sequence kernel none init =
      Except.error ['V', 'a', 'l', 'u', 'e'] := by
  have hres : resolveShape sequence none =
      Except.error ['V', 'a', 'l', 'u', 'e'] := by
    show resolveShapeNone sequence = _
    unfold resolveShapeNone
    rw [if_pos (two_mem_one_lt_length _ a.shape b.shape
      (List.mem_dedup.mpr (List.mem_map_of_mem _ ha))
      (List.mem_dedup.mpr (List.mem_map_of_mem _ hb))
      hne)]
  unfold windowedOp
  rw [hres]

/-- Witness for C10: two one-dimensional inputs of lengths 2 and 3. -/
theorem claim_C10_shape_mismatch_witness :
    windowedOp (fun ws => ws.headI)
      [⟨[2], fun _ => 0⟩, ⟨[3], fun _ => 0⟩] [1] none (fun _ => 0) =
      Except.error ['V', 'a', 'l', 'u', 'e'] :=
  claim_C10_shape_mismatch (fun ws => ws.headI)
    [⟨[2], fun _ => 0⟩, ⟨[3], fun _ => 0⟩] [1] (fun _ => 0)
    ⟨[2], fun _ => 0⟩ ⟨[3], fun _ => 0⟩
    (List.mem_cons_self _ _) (by simp) (by decide)

theorem pySliceIndices_isSome (a b c : Option Int) (n : Nat)
    (h : ¬ c.getD 1 = 0) :
    ∃ idxs, pySliceIndices a b c n = some idxs := by
  unfold pySliceIndices
  rw [if_neg h]
  by_cases h2 : 0 < c.getD 1
  · rw [if_pos h2]
    exact ⟨_, rfl⟩
  · rw [if_neg h2]
    exact ⟨_, rfl⟩

theorem pySliceIndices_lt (a b c : Option Int) (n : Nat) (idxs : List Nat)
    (h : pySliceIndices a b c n = some idxs) : ∀ j ∈ idxs, j < n := by
  unfold pySliceIndices at h
  split at h
  · exact Option.noConfusion h
  · split at h
    · obtain rfl := Option.some.inj h
      intro j hj
      exact List.mem_range.mp (List.mem_of_mem_filter hj)
    · obtain rfl := Option.some.inj h
      intro j hj
      rw [List.mem_reverse] at hj
      exact List.mem_range.mp (List.mem_of_mem_filter hj)

/-- C4: slicing a single-view Proxy fails with `TypeError`; slicing a
multi-view Proxy `p` by a valid slice `s` re-normalizes `s` against `p`'s
own index list and composes the index mappings (the result's mapping is
the normalized indices mapped through `p`'s mapping, hence a list of
Provider indices), `len(p[s]) = len(range(N)[s])` when `p` covers all `N`
units, and iterating the result yields one single view per selected
Provider index, in order. -/
theorem claim_C4_proxy_slicing (N : Nat) (m : List Nat)
    (hm : ∀ i ∈ m, i < N)
    (start? stop? step? : Option Int) (hstep : ¬ step?.getD 1 = 0) :
    (∀ (p : ProxyM) (sel : Selector), p.single = true →
        proxy_getitem p sel = Except.error TypeErrorStr)
    ∧ ∃ idxs, pySliceIndices start? stop? step? m.length = some idxs ∧
        proxy_getitem ⟨m, false⟩ (Selector.slc start? stop? step?) =
          Except.ok ⟨idxs.map (fun i => m.getD i 0), false⟩ ∧
        (∀ i ∈ idxs.map (fun i => m.getD i 0), i < N) ∧
        (m = List.range N →
          ∃ full, pySliceIndices start? stop? step? N = some full ∧
            (idxs.map (fun i => m.getD i 0)).length = full.length) ∧
        proxy_iter ⟨idxs.map (fun i => m.getD i 0), false⟩ =
          (idxs.map (fun i => m.getD i 0)).map (fun j => ⟨[j], true⟩) := by
  constructor
  · intro p sel hs
    unfold proxy_getitem
    rw [if_pos hs]
  · obtain ⟨idxs, hidxs⟩ := pySliceIndices_isSome start? stop? step?
      m.length hstep
    refine ⟨idxs, hidxs, ?_, ?_, ?_, ?_⟩
    · unfold proxy_getitem
      rw [if_neg (by simp)]
      show (match normalize_indices (Selector.slc start? stop? step?)
          m.length with
        | Except.error e => (Except.error e : Except Str ProxyM)
        | Except.ok (indices, multiple) =>
            Except.ok (provider_slice
              (indices.map (fun idx => m.getD idx 0)) multiple)) = _
      simp only [normalize_indices, hidxs, provider_slice, Bool.not_true]
    · intro i hi
      rw [List.mem_map] at hi
      obtain ⟨j, hj, rfl⟩ := hi
      have hjlt : j < m.length := pySliceIndices_lt _ _ _ _ _ hidxs j hj
      rw [List.getD_eq_getElem m 0 hjlt]
      exact hm _ (List.getElem_mem hjlt)
    · intro hrange
      refine ⟨idxs, ?_, by rw [List.length_map]⟩
      rw [← hidxs, hrange, List.length_range]
    · unfold proxy_iter
      rw [if_neg (by simp)]
      rfl

/-- Witness for C4: the full proxy `[0, 1, 2, 3]` over 4 units, sliced by
`[1::2]` (start 1, step 2). -/
theorem claim_C4_proxy_slicing_witness :
    (∀ (p : ProxyM) (sel : Selector), p.single = true →
        proxy_getitem p sel = Except.error TypeErrorStr)
    ∧ ∃ idxs, pySliceIndices (some 1) none (some 2) [0, 1, 2, 3].length =
          some idxs ∧
        proxy_getitem ⟨[0, 1, 2, 3], false⟩
            (Selector.slc (some 1) none (some 2)) =
          Except.ok ⟨idxs.map (fun i => [0, 1, 2, 3].getD i 0), false⟩ ∧
        (∀ i ∈ idxs.map (fun i => [0, 1, 2, 3].getD i 0), i < 4) ∧
        ([0, 1, 2, 3] = List.range 4 →
          ∃ full, pySliceIndices (some 1) none (some 2) 4 = some full ∧
            (idxs.map (fun i => [0, 1, 2, 3].getD i 0)).length =
              full.length) ∧
        proxy_iter ⟨idxs.map (fun i => [0, 1, 2, 3].getD i 0), false⟩ =
          (idxs.map (fun i => [0, 1, 2, 3].getD i 0)).map
            (fun j => ⟨[j], true⟩) :=
  claim_C4_proxy_slicing 4 [0, 1, 2, 3] (by decide)
    (some 1) none (some 2) (by decide)

theorem splitlinesAux_no_breaks (doc : List Nat) :
    ∀ (acc : List Nat), (∀ c ∈ doc, isLineBreak c = false) →
    ¬ (doc = [] ∧ acc = []) →
    splitlinesAux doc acc = [acc.reverse ++ doc] := by
  induction doc with
  | nil =>
      intro acc _ hne
      have hacc : ¬ acc.isEmpty = true := by
        cases acc with
        | nil => exact absurd ⟨rfl, rfl⟩ hne
        | cons a t => simp
      simp only [splitlinesAux]
      rw [if_neg hacc, List.append_nil]
  | cons c rest ih =>
      intro acc hnb hne
      have hc : isLineBreak c = false := hnb c (List.mem_cons_self c rest)
      simp only [splitlinesAux]
      rw [if_neg (by rw [hc]; exact Bool.false_ne_true)]
      rw [ih (c :: acc) (fun c2 h2 => hnb c2 (List.mem_cons_of_mem c h2))
        (by simp)]
      simp

/-- C9: encoding a transform whose serialized document is strict ASCII
produces a text-table extension whose rows are exactly the document's
lines (one row per line — a break-free document is a single row); a
document containing a non-ASCII byte produces a binary-table extension
instead, with the fallback warning logged; a transform with an untagged
constituent fails with `TypeError`. -/
theorem claim_C9_wcs_codec (w : WcsObjM) (ver : Option Int) :
    (w.taggable = false →
      wcs_to_asdftablehdu w ver = Except.error TypeErrorStr)
    ∧ (w.taggable = true → (∀ b ∈ w.doc, b < 128) →
      wcs_to_asdftablehdu w ver =
        Except.ok (WcsHDUm.text (splitlines w.doc) ver, false))
    ∧ (w.taggable = true → (∃ b ∈ w.doc, ¬ b < 128) →
      wcs_to_asdftablehdu w ver =
        Except.ok (WcsHDUm.binary w.doc ver, true))
    ∧ (∀ (doc : List Nat), ¬ doc = [] →
      (∀ c ∈ doc, isLineBreak c = false) → splitlines doc = [doc]) := by
  refine ⟨?_, ?_, ?_, ?_⟩
  · intro hng
    unfold wcs_to_asdftablehdu asdfSerialize
    rw [if_neg (by rw [hng]; exact Bool.false_ne_true)]
  · intro htag hascii
    unfold wcs_to_asdftablehdu asdfSerialize
    rw [if_pos htag]
    show (if w.doc.all (fun b => b < 128) then
        (Except.ok (WcsHDUm.text (splitlines w.doc) ver, false) :
          Except Str (WcsHDUm × Bool))
      else Except.ok (WcsHDUm.binary w.doc ver, true)) = _
    rw [if_pos (by
      rw [List.all_eq_true]
      intro b hb
      exact decide_eq_true (hascii b hb))]
  · intro htag hnon
    unfold wcs_to_asdftablehdu asdfSerialize
    rw [if_pos htag]
    show (if w.doc.all (fun b => b < 128) then
        (Except.ok (WcsHDUm.text (splitlines w.doc) ver, false) :
          Except Str (WcsHDUm × Bool))
      else Except.ok (WcsHDUm.binary w.doc ver, true)) = _
    rw [if_neg (by
      rw [List.all_eq_true]
      intro hall
      obtain ⟨b, hb, hge⟩ := hnon
      exact hge (by simpa using hall b hb))]
  · intro doc hne hnb
    unfold splitlines
    rw [splitlinesAux_no_breaks doc [] hnb (fun h => hne h.1)]
    rfl

/-- Witness for C9: the taggable transform serializing to `"a\nb"` encodes
as a text table. -/
theorem claim_C9_wcs_codec_witness :
    wcs_to_asdftablehdu ⟨true, [97, 10, 98]⟩ none =
      Except.ok (WcsHDUm.text (splitlines [97, 10, 98]) none, false) :=
  (claim_C9_wcs_codec ⟨true, [97, 10, 98]⟩ none).2.1 rfl (by decide)

theorem strLt_iff (a b : Char) (as bs : Str) :
    strLt (a :: as) (b :: bs) = true ↔
      a < b ∨ (a = b ∧ strLt as bs = true) := by
  simp [strLt]

theorem strLt_irrefl (s : Str) : strLt s s = false := by
  induction s with
  | nil => rfl
  | cons a as ih => simp [strLt, ih]

theorem strLt_trans (s t r : Str) (h1 : strLt s t = true)
    (h2 : strLt t r = true) : strLt s r = true := by
  induction s generalizing t r with
  | nil =>
      cases r with
      | nil =>
          cases t with
          | nil => exact absurd h1 (by simp [strLt])
          | cons b bs => exact absurd h2 (by simp [strLt])
      | cons c cs => simp [strLt]
  | cons a as ih =>
      cases t with
      | nil => exact absurd h1 (by simp [strLt])
      | cons b bs =>
          cases r with
          | nil => exact absurd h2 (by simp [strLt])
          | cons c cs =>
              rw [strLt_iff] at h1 h2 ⊢
              rcases h1 with h1 | ⟨rfl, h1⟩
              · rcases h2 with h2 | ⟨rfl, h2⟩
                · exact Or.inl (lt_trans h1 h2)
                · exact Or.inl h1
              · rcases h2 with h2 | ⟨rfl, h2⟩
                · exact Or.inl h2
                · exact Or.inr ⟨rfl, ih bs cs h1 h2⟩

theorem strLt_asymm (s t : Str) (h : strLt s t = true) :
    strLt t s = false := by
  by_contra hc
  rw [Bool.not_eq_false] at hc
  have := strLt_trans s t s h hc
  rw [strLt_irrefl] at this
  exact Bool.noConfusion this

theorem strLt_connex (s t : Str) (h1 : strLt s t = false)
    (h2 : strLt t s = false) : s = t := by
  induction s generalizing t with
  | nil =>
      cases t with
      | nil => rfl
      | cons b bs => exact absurd h1 (by simp [strLt])
  | cons a as ih =>
      cases t with
      | nil => exact absurd h2 (by simp [strLt])
      | cons b bs =>
          simp [strLt] at h1 h2
          have heq : a = b := le_antisymm h2.1 h1.1
          subst heq
          rw [ih bs (h1.2 rfl) (h2.2 rfl)]

theorem keyLt_iff (a b : Int × Str) :
    keyLt a b = true ↔ a.1 < b.1 ∨ (a.1 = b.1 ∧ strLt a.2 b.2 = true) := by
  simp [keyLt]

theorem keyLt_irrefl (a : Int × Str) : keyLt a a = false := by
  simp [keyLt, strLt_irrefl]

theorem keyLt_trans (a b c : Int × Str) (h1 : keyLt a b = true)
    (h2 : keyLt b c = true) : keyLt a c = true := by
  rw [keyLt_iff] at h1 h2 ⊢
  rcases h1 with h1 | ⟨he1, h1⟩
  · rcases h2 with h2 | ⟨he2, h2⟩
    · exact Or.inl (lt_trans h1 h2)
    · exact Or.inl (he2 ▸ h1)
  · rcases h2 with h2 | ⟨he2, h2⟩
    · exact Or.inl (he1 ▸ h2)
    · exact Or.inr ⟨he1.trans he2, strLt_trans _ _ _ h1 h2⟩

theorem keyLt_connex (a b : Int × Str) (h1 : keyLt a b = false)
    (h2 : keyLt b a = false) : a = b := by
  simp [keyLt] at h1 h2
  have hv : a.1 = b.1 := le_antisymm h2.1 h1.1
  have hs : a.2 = b.2 := strLt_connex _ _ (h1.2 hv) (h2.2 hv.symm)
  exact Prod.ext hv hs

theorem keyLt_asymm (x y : Int × Str) (h : keyLt x y = true) :
    keyLt y x = false := by
  by_contra hc
  rw [Bool.not_eq_false] at hc
  have := keyLt_trans _ _ _ h hc
  rw [keyLt_irrefl] at this
  exact Bool.noConfusion this

theorem extLe_trans (a b c : HDUm) (h1 : extLe a b = true)
    (h2 : extLe b c = true) : extLe a c = true := by
  unfold extLe at h1 h2 ⊢
  rw [Bool.not_eq_true'] at h1 h2 ⊢
  by_contra hx
  rw [Bool.not_eq_false] at hx
  rcases Bool.eq_false_or_eq_true
      (keyLt (fits_ext_comp_key a) (fits_ext_comp_key b)) with hab | hab
  · have hcb := keyLt_trans _ _ _ hx hab
    rw [hcb] at h2
    exact Bool.noConfusion h2
  · have heq := keyLt_connex _ _ hab h1
    rw [heq] at hx
    rw [hx] at h2
    exact Bool.noConfusion h2

theorem extLe_total (a b : HDUm) : (extLe a b || extLe b a) = true := by
  unfold extLe
  rcases Bool.eq_false_or_eq_true
      (keyLt (fits_ext_comp_key b) (fits_ext_comp_key a)) with h | h
  · rw [keyLt_asymm _ _ h]
    simp
  · rw [h]
    rfl

theorem tableLe_trans (a b c : Str × Option Int × List Int)
    (h1 : (! strLt b.1 a.1) = true) (h2 : (! strLt c.1 b.1) = true) :
    (! strLt c.1 a.1) = true := by
  rw [Bool.not_eq_true'] at h1 h2 ⊢
  by_contra hx
  rw [Bool.not_eq_false] at hx
  rcases Bool.eq_false_or_eq_true (strLt a.1 b.1) with hab | hab
  · have := strLt_trans _ _ _ hx hab
    rw [this] at h2
    exact Bool.noConfusion h2
  · have heq := strLt_connex _ _ hab h1
    rw [heq] at hx
    rw [hx] at h2
    exact Bool.noConfusion h2

theorem tableLe_total (a b : Str × Option Int × List Int) :
    ((! strLt b.1 a.1) || (! strLt a.1 b.1)) = true := by
  rcases Bool.eq_false_or_eq_true (strLt b.1 a.1) with h | h
  · rw [strLt_asymm _ _ h]
    simp
  · rw [h]
    rfl

theorem foldl_append_flatMap {α β : Type} (f : α → List β) (l : List α)
    (init : List β) :
    l.foldl (fun acc x => acc ++ f x) init = init ++ l.flatMap f := by
  induction l generalizing init with
  | nil => simp
  | cons x t ih =>
      rw [List.foldl_cons, ih, List.flatMap_cons, List.append_assoc]

/-- C2: the Writer emits the primary metadata extension first, then for
each unit in Provider order its primary array extension, its `VAR`
extension when an uncertainty is present, its `DQ` extension when a mask
is present, its `WCS` transform extension when not suppressed, then its
auxiliary objects in order; after all units, every container-level table,
sorted by name. -/
theorem claim_C2_writer_order (E : WcsEnv) (p : ProviderM) :
    (write_fits E p =
      ⟨HDUKind.primary, p.phuName, p.phuVer, none⟩ ::
        (p.nddata.flatMap (unitHDUs E) ++
          (tablesSorted p.tables).map tableHDU))
    ∧ (∀ u : UnitM, unitHDUs E u =
        [⟨HDUKind.image, u.hname, u.hver, some u.data⟩] ++
        (u.uncertainty.map (fun pl =>
          (⟨HDUKind.image, some VARn, u.hver, some pl⟩ : HDUm))).toList ++
        (u.mask.map (fun pl =>
          (⟨HDUKind.image, some DQn, u.hver, some pl⟩ : HDUm))).toList ++
        ((wcsKeep E u.wcs).map (fun w =>
          (⟨HDUKind.table, some WCSn, some u.ver,
            some (E.asdfDump w)⟩ : HDUm))).toList ++
        u.other.map auxHDU)
    ∧ List.Perm (tablesSorted p.tables) p.tables
    ∧ (tablesSorted p.tables).Pairwise
        (fun a b => strLt b.1 a.1 = false) := by
  refine ⟨?_, ?_, ?_, ?_⟩
  · unfold write_fits
    rw [foldl_append_flatMap]
    rfl
  · intro u
    unfold unitHDUs
    cases hu : u.uncertainty <;> cases hm : u.mask <;>
      cases hw : wcsKeep E u.wcs <;> simp
  · exact List.mergeSort_perm p.tables _
  · have hs :=
      List.sorted_mergeSort tableLe_trans tableLe_total p.tables
    exact hs.imp (fun h => by rwa [Bool.not_eq_true'] at h)

/-! ### Sort-key and mergeSort facts for the round trip -/

theorem key_primary (u : HDUm) (h : u.kind = HDUKind.primary) :
    fits_ext_comp_key u = (-1, []) := by
  unfold fits_ext_comp_key
  rw [if_pos h]

theorem key_nonprimary (u : HDUm) (h : ¬ u.kind = HDUKind.primary) :
    fits_ext_comp_key u = (verKey u.extver, zAdjName u.extname) := by
  unfold fits_ext_comp_key
  rw [if_neg h]

theorem verKey_some (v : Int) (hv : ¬ v = -1) : verKey (some v) = v := by
  simp only [verKey]
  rw [if_neg hv]

theorem key_of_ver (u : HDUm) (v : Int) (h : ¬ u.kind = HDUKind.primary)
    (hv : u.extver = some v) (hne : ¬ v = -1) :
    fits_ext_comp_key u = (v, zAdjName u.extname) := by
  rw [key_nonprimary u h, hv, verKey_some v hne]

theorem keyLt_bot (v : Int) (n : Str) (h : -1 < v) :
    keyLt (-1, []) (v, n) = true := by
  rw [keyLt_iff]
  exact Or.inl h

theorem mergeSort_cons_of_min (p : HDUm) (l : List HDUm)
    (hmin : ∀ u ∈ l,
      keyLt (fits_ext_comp_key p) (fits_ext_comp_key u) = true)
    (hne : ∀ u ∈ l, ¬ u = p) :
    ∃ t, (p :: l).mergeSort extLe = p :: t ∧ List.Perm t l ∧
      t.Pairwise (fun a b => extLe a b = true) := by
  have hperm := List.mergeSort_perm (p :: l) extLe
  have hsort := List.sorted_mergeSort extLe_trans extLe_total (p :: l)
  cases hs : (p :: l).mergeSort extLe with
  | nil =>
      rw [hs] at hperm
      have := hperm.length_eq
      simp at this
  | cons a t =>
      rw [hs] at hperm hsort
      have ha : a ∈ p :: l := hperm.mem_iff.mp (List.mem_cons_self a t)
      rcases List.mem_cons.mp ha with rfl | hal
      · exact ⟨t, rfl, hperm.cons_inv, (List.pairwise_cons.mp hsort).2⟩
      · exfalso
        have hpa : p ∈ a :: t := hperm.mem_iff.mpr (List.mem_cons_self p l)
        rcases List.mem_cons.mp hpa with heq | hpt
        · exact hne a hal heq.symm
        · have hle := (List.pairwise_cons.mp hsort).1 p hpt
          unfold extLe at hle
          rw [Bool.not_eq_true'] at hle
          rw [hmin a hal] at hle
          exact Bool.noConfusion hle

theorem filter_mergeSort_eq (P : HDUm → Bool) (l : List HDUm)
    (hs : (l.filter P).Pairwise (fun a b => extLe a b = true)) :
    (l.mergeSort extLe).filter P = l.filter P := by
  have hsub : List.Sublist (l.filter P) (l.mergeSort extLe) :=
    List.sublist_mergeSort extLe_trans extLe_total hs (List.filter_sublist l)
  have hself : (l.filter P).filter P = l.filter P :=
    List.filter_eq_self.mpr (fun a ha => List.of_mem_filter ha)
  have hsub2 : List.Sublist (l.filter P) ((l.mergeSort extLe).filter P) := by
    have h1 := hsub.filter P
    rwa [hself] at h1
  have hperm : List.Perm ((l.mergeSort extLe).filter P) (l.filter P) :=
    (List.mergeSort_perm l extLe).filter P
  exact (hsub2.eq_of_length hperm.length_eq.symm).symm

theorem filter_cons_cancel (P : HDUm → Bool) (p : HDUm) (t l : List HDUm)
    (h : List.filter P (p :: t) = List.filter P (p :: l)) :
    List.filter P t = List.filter P l := by
  cases hP : P p <;> simp only [List.filter_cons, hP] at h
  · exact h
  · exact List.tail_eq_of_cons_eq h

theorem unitHDUs_decomp (E : WcsEnv) (u : UnitM) :
    unitHDUs E u =
      [unitDataHDU u] ++
      (u.uncertainty.map (fun pl =>
        (⟨HDUKind.image, some VARn, u.hver, some pl⟩ : HDUm))).toList ++
      (u.mask.map (fun pl =>
        (⟨HDUKind.image, some DQn, u.hver, some pl⟩ : HDUm))).toList ++
      ((wcsKeep E u.wcs).map (fun w =>
        (⟨HDUKind.table, some WCSn, some u.ver,
          some (E.asdfDump w)⟩ : HDUm))).toList ++
      u.other.map auxHDU := by
  unfold unitHDUs unitDataHDU
  cases hu : u.uncertainty <;> cases hm : u.mask <;>
    cases hw : wcsKeep E u.wcs <;> simp

theorem unitHDUs_left (E : WcsEnv) (u : UnitM) (h1 : u.uncertainty = none)
    (h2 : u.mask = none) (h3 : u.wcs = none) (h4 : u.other = []) :
    unitHDUs E u = [unitDataHDU u] := by
  rw [unitHDUs_decomp, h1, h2, h3, h4]
  rfl

theorem prepare_of_recognized (hd : HDUm) (tl : List HDUm)
    (hp : hd.kind = HDUKind.primary) (hdata : hd.data = none)
    (hall : ∀ u ∈ tl, recogP u = true) :
    _prepare_hdulist (hd :: tl) = (hd :: tl).mergeSort extLe := by
  unfold _prepare_hdulist
  rw [if_pos ?cond]
  case cond =>
    cases tl with
    | nil =>
        right
        exact ⟨by simp, by simpa [List.headI] using hdata⟩
    | cons x t => left; simp
  have hkeep : (hd :: tl).filter
      (fun u => recogP u || u.kind = HDUKind.primary) = hd :: tl :=
    List.filter_eq_self.mpr (fun u hu => by
      rcases List.mem_cons.mp hu with rfl | hmem
      · simp [hp]
      · simp [hall u hmem])
  have hnone : (hd :: tl).filter
      (fun u => ! (recogP u || u.kind = HDUKind.primary)) = [] := by
    rw [List.filter_eq_nil_iff]
    intro u hu
    rcases List.mem_cons.mp hu with rfl | hmem
    · simp [hp]
    · simp [hall u hmem]
  rw [hkeep, hnone]
  simp [pass2]

theorem read_fits_eq (E : WcsEnv) (mm : Bool) (hs : List HDUm)
    (p : HDUm) (t : List HDUm) (hprep : _prepare_hdulist hs = p :: t) :
    read_fits E mm hs =
      if mm = false ∧ ¬ (t.filter (fun u => u.extname = some SCI)) = [] then
        Except.error NameErrorStr
      else
        Except.ok
          ((t.filter (fun u => ! isSeen (p :: t) u)).foldl appendLeftover
            ⟨p.extname, p.extver,
              (t.filter (fun u => u.extname = some SCI)).map
                (buildUnit E (p :: t) (p.extname, p.extver)), []⟩) := by
  unfold read_fits
  rw [hprep]

theorem foldl_appendLeftover_nddata (ls : List HDUm) (p0 : ProviderM) :
    (ls.foldl appendLeftover p0).nddata =
      p0.nddata ++
        (ls.filter (fun u =>
          (u.kind = HDUKind.image) && u.data.isSome)).map mkLeftUnit := by
  induction ls generalizing p0 with
  | nil => simp
  | cons u t ih =>
      rw [List.foldl_cons, ih]
      by_cases hk : u.kind = HDUKind.table
      · have h1 : appendLeftover p0 u =
            { p0 with tables := (tablePut p0.tables (u.extname.getD [])
              (u.extver, u.data.getD [])) } := by
          unfold appendLeftover
          rw [if_pos hk]
        have h2 : (decide (u.kind = HDUKind.image) && u.data.isSome) =
            false := by
          rw [hk]
          rfl
        rw [h1]
        simp [List.filter_cons, h2]
      · cases hki : u.kind with
        | table => exact absurd hki hk
        | primary =>
            have h1 : appendLeftover p0 u = p0 := by
              unfold appendLeftover
              rw [if_neg hk, hki]
            have h2 : (decide (u.kind = HDUKind.image) && u.data.isSome) =
                false := by
              rw [hki]
              rfl
            rw [h1]
            simp [List.filter_cons, h2]
        | image =>
            cases hd : u.data with
            | none =>
                have h1 : appendLeftover p0 u = p0 := by
                  unfold appendLeftover
                  rw [if_neg hk, hki, hd]
                have h2 : (decide (u.kind = HDUKind.image) &&
                    u.data.isSome) = false := by
                  rw [hki, hd]
                  rfl
                rw [h1]
                simp [List.filter_cons, h2]
            | some payload =>
                have h1 : appendLeftover p0 u =
                    { p0 with nddata := p0.nddata ++ [mkLeftUnit u] } := by
                  unfold appendLeftover mkLeftUnit
                  rw [if_neg hk, hki, hd, Option.getD_some]
                have h2 : (decide (u.kind = HDUKind.image) &&
                    u.data.isSome) = true := by
                  rw [hki, hd]
                  rfl
                rw [h1]
                simp [List.filter_cons, h2]

theorem foldl_appendLeftover_phu (ls : List HDUm) (p0 : ProviderM) :
    (ls.foldl appendLeftover p0).phuName = p0.phuName ∧
    (ls.foldl appendLeftover p0).phuVer = p0.phuVer := by
  induction ls generalizing p0 with
  | nil => exact ⟨rfl, rfl⟩
  | cons u t ih =>
      rw [List.foldl_cons]
      have h := ih (appendLeftover p0 u)
      have hname : (appendLeftover p0 u).phuName = p0.phuName := by
        unfold appendLeftover
        split
        · rfl
        · split <;> rfl
      have hver : (appendLeftover p0 u).phuVer = p0.phuVer := by
        unfold appendLeftover
        split
        · rfl
        · split <;> rfl
      exact ⟨h.1.trans hname, h.2.trans hver⟩

theorem tablePut_mem (ts : List (Str × Option Int × List Int)) (k : Str)
    (v : Option Int × List Int) (x : Str × Option Int × List Int)
    (hx : x ∈ tablePut ts k v) : x ∈ ts ∨ x = (k, v) := by
  unfold tablePut at hx
  split at hx
  · rw [List.mem_map] at hx
    obtain ⟨e, he, hxe⟩ := hx
    by_cases hek : e.1 = k
    · rw [if_pos hek] at hxe
      exact Or.inr hxe.symm
    · rw [if_neg hek] at hxe
      exact Or.inl (hxe ▸ he)
  · rcases List.mem_append.mp hx with h | h
    · exact Or.inl h
    · exact Or.inr (List.mem_singleton.mp h)

theorem foldl_appendLeftover_tables (ls : List HDUm) (p0 : ProviderM)
    (x : Str × Option Int × List Int)
    (hx : x ∈ (ls.foldl appendLeftover p0).tables) :
    x ∈ p0.tables ∨
      ∃ u ∈ ls, u.kind = HDUKind.table ∧
        x = (u.extname.getD [], u.extver, u.data.getD []) := by
  induction ls generalizing p0 with
  | nil => exact Or.inl hx
  | cons u t ih =>
      rw [List.foldl_cons] at hx
      rcases ih (appendLeftover p0 u) hx with h | h
      · unfold appendLeftover at h
        split at h
        · rename_i hk
          rcases tablePut_mem _ _ _ _ h with h2 | h2
          · exact Or.inl h2
          · exact Or.inr ⟨u, List.mem_cons_self u t, hk, h2⟩
        · split at h
          · exact Or.inl h
          · exact Or.inl h
      · obtain ⟨w, hw, hk, he⟩ := h
        exact Or.inr ⟨w, List.mem_cons_of_mem u hw, hk, he⟩

theorem wfExt_name (u : HDUm) (h : wfExt u) :
    ∃ n, u.extname = some n ∧ ¬ n = [] := by
  obtain ⟨-, hn, hne, -, -, -⟩ := h
  cases he : u.extname with
  | none => rw [he] at hn; exact Bool.noConfusion hn
  | some n =>
      rw [he] at hne
      exact ⟨n, rfl, by simpa using hne⟩

theorem wfExt_ver (u : HDUm) (h : wfExt u) :
    ∃ v, u.extver = some v ∧ verOK v := by
  obtain ⟨-, -, -, hv, hr, -⟩ := h
  cases he : u.extver with
  | none => rw [he] at hv; exact Bool.noConfusion hv
  | some v =>
      rw [he] at hr
      exact ⟨v, rfl, by simpa using hr⟩

theorem wfExt_recogP (u : HDUm) (h : wfExt u) : recogP u = true := by
  obtain ⟨v, hv, hr⟩ := wfExt_ver u h
  obtain ⟨-, hn, -, -, -, -⟩ := h
  unfold recogP
  rw [Bool.and_eq_true, hv]
  unfold verOK at hr
  exact ⟨by simp only [decide_eq_true_eq]; omega, hn⟩

theorem wfAux_mkAux (ver : Int) (x : HDUm)
    (h1 : ¬ x.extname.getD [] ∈ skipNames) (h2 : ¬ x.extname.getD [] = [])
    (h3 : x.extver = some ver) : wfAux ver (mkAux x) := by
  unfold mkAux
  split <;> exact ⟨h1, h2, h3⟩

theorem ver_le_of_extLe (h1 h2 : HDUm) (v1 v2 : Int)
    (hk1 : fits_ext_comp_key h1 = (v1, SCI))
    (hk2 : fits_ext_comp_key h2 = (v2, SCI))
    (hle : extLe h1 h2 = true) : v1 ≤ v2 := by
  unfold extLe at hle
  rw [Bool.not_eq_true'] at hle
  rw [hk1, hk2] at hle
  rw [← Bool.not_eq_true, keyLt_iff] at hle
  push_neg at hle
  exact hle.1

theorem mem_associated (pre : List HDUm) (ver : Int) (x : HDUm)
    (hx : x ∈ associated pre ver) :
    x ∈ pre ∧ x.extver = some ver ∧ ¬ x.extname.getD [] ∈ skipNames := by
  unfold associated at hx
  have h1 := List.mem_of_mem_filter hx
  have h2 := List.of_mem_filter hx
  rw [decide_eq_true_eq] at h2
  exact ⟨h1, h2.1, h2.2⟩

/-- Part A of the round trip: a well-formed container reads into a
provider satisfying the invariant `Inv`. -/
theorem read_wf_Inv (E : WcsEnv) (mm : Bool) (hs : List HDUm)
    (hwf : wfContainer hs) (prov : ProviderM)
    (hread : read_fits E mm hs = Except.ok prov) : Inv prov := by
  cases hs with
  | nil => exact absurd hwf (by simp [wfContainer])
  | cons p rest =>
  obtain ⟨hp, hpn, hpv, hpd, hall⟩ := hwf
  have hallrec : ∀ u ∈ rest, recogP u = true :=
    fun u hu => wfExt_recogP u (hall u hu)
  have hprep0 := prepare_of_recognized p rest hp hpd hallrec
  obtain ⟨t, hmt, htperm, htpair⟩ := mergeSort_cons_of_min p rest
    (fun u hu => by
      obtain ⟨v, hv, hr⟩ := wfExt_ver u (hall u hu)
      rw [key_primary p hp,
        key_of_ver u v (hall u hu).1 hv (by unfold verOK at hr; omega)]
      exact keyLt_bot v _ (by unfold verOK at hr; omega))
    (fun u hu heq => (hall u hu).1 (heq ▸ hp))
  have hprep : _prepare_hdulist (p :: rest) = p :: t := hprep0.trans hmt
  rw [read_fits_eq E mm (p :: rest) p t hprep] at hread
  have hprov : prov =
      ((t.filter (fun u => ! isSeen (p :: t) u)).foldl appendLeftover
        ⟨p.extname, p.extver,
          (t.filter (fun u => u.extname = some SCI)).map
            (buildUnit E (p :: t) (p.extname, p.extver)), []⟩) := by
    by_cases hc : (mm = false ∧
        ¬ (t.filter (fun u => u.extname = some SCI)) = [])
    · rw [if_pos hc] at hread
      exact absurd hread (by simp)
    · rw [if_neg hc] at hread
      exact (Except.ok.inj hread).symm
  subst hprov
  have hmemt : ∀ u ∈ t, wfExt u :=
    fun u hu => hall u (htperm.mem_iff.mp hu)
  -- the SCI extensions and the leftover extensions after the sort
  have hnddata := foldl_appendLeftover_nddata
    (t.filter (fun u => ! isSeen (p :: t) u))
    ⟨p.extname, p.extver,
      (t.filter (fun u => u.extname = some SCI)).map
        (buildUnit E (p :: t) (p.extname, p.extver)), []⟩
  have hphu := foldl_appendLeftover_phu
    (t.filter (fun u => ! isSeen (p :: t) u))
    ⟨p.extname, p.extver,
      (t.filter (fun u => u.extname = some SCI)).map
        (buildUnit E (p :: t) (p.extname, p.extver)), []⟩
  refine ⟨hphu.1.trans hpn, hphu.2.trans hpv,
    (t.filter (fun u => u.extname = some SCI)).map
      (buildUnit E (p :: t) (p.extname, p.extver)),
    ((t.filter (fun u => ! isSeen (p :: t) u)).filter
      (fun u => (u.kind = HDUKind.image) && u.data.isSome)).map mkLeftUnit,
    by rw [hnddata], ?_, ?_, ?_, ?_, ?_⟩
  · -- every SCI unit is well-formed
    intro u hu
    rw [List.mem_map] at hu
    obtain ⟨h, hh, rfl⟩ := hu
    have hsci : h.extname = some SCI := by
      have := List.of_mem_filter hh
      rwa [decide_eq_true_eq] at this
    have hht := List.mem_of_mem_filter hh
    obtain ⟨v, hv, hr⟩ := wfExt_ver h (hmemt h hht)
    refine ⟨rfl, hsci, by simp [buildUnit, hv], by simp [buildUnit, hv, hr], ?_⟩
    intro a ha
    simp only [buildUnit, List.mem_map] at ha
    obtain ⟨x, hx, rfl⟩ := ha
    have hxa := mem_associated (p :: t) (h.extver.getD (-1))
      x (List.mem_of_mem_filter hx)
    have hxt : x ∈ t := by
      rcases List.mem_cons.mp hxa.1 with rfl | hmem
      · rw [hpv] at hxa
        exact absurd hxa.2.1 (by simp)
      · exact hmem
    obtain ⟨n, hn, hne⟩ := wfExt_name x (hmemt x hxt)
    have : h.extver.getD (-1) = v := by rw [hv]; rfl
    rw [this] at hxa
    refine ?_
    have hwa := wfAux_mkAux v x hxa.2.2 (by rw [hn]; simpa using hne) hxa.2.1
    simpa [buildUnit, hv] using hwa
  · -- every leftover unit is well-formed
    intro u hu
    rw [List.mem_map] at hu
    obtain ⟨h, hh, rfl⟩ := hu
    have hh2 := List.mem_of_mem_filter hh
    have hseen : isSeen (p :: t) h = false := by
      have := List.of_mem_filter hh2
      simpa using this
    have hht := List.mem_of_mem_filter hh2
    obtain ⟨n, hn, hne⟩ := wfExt_name h (hmemt h hht)
    obtain ⟨v, hv, hr⟩ := wfExt_ver h (hmemt h hht)
    unfold isSeen at hseen
    rw [Bool.or_eq_false_iff] at hseen
    have hnotsci : ¬ h.extname = some SCI := by
      have := hseen.1
      simpa using this
    have hnotassoc := hseen.2
    rw [List.any_eq_false] at hnotassoc
    refine ⟨?_, ?_, ?_, ?_, ?_, rfl, rfl, rfl, rfl, ?_⟩
    · show ¬ h.extname.getD [] = SCI
      rw [hn]
      show ¬ n = SCI
      intro hc
      exact hnotsci (by rw [hn, hc])
    · show ¬ h.extname.getD [] = []
      rw [hn]
      simpa using hne
    · show h.extname = some (h.extname.getD [])
      rw [hn]
      rfl
    · show h.extver = some (h.extver.getD (-1))
      rw [hv]
      rfl
    · show verOK (h.extver.getD (-1))
      rw [hv]
      exact hr
    · -- not associated with any SCI version
      by_cases hskip : h.extname.getD [] ∈ skipNames
      · exact Or.inl hskip
      · right
        intro hmem
        rw [List.map_map, List.mem_map] at hmem
        obtain ⟨u2, hu2, hveq⟩ := hmem
        have hveq2 : u2.extver.getD (-1) = (mkLeftUnit h).ver := hveq
        have hwmem : u2.extver.getD (-1) ∈ sciVers (p :: t) := by
          unfold sciVers
          rw [List.mem_map]
          refine ⟨u2, ?_, rfl⟩
          simpa [List.drop] using hu2
        have hcontra := hnotassoc (u2.extver.getD (-1)) hwmem
        rw [Bool.not_eq_true, decide_eq_false_iff_not] at hcontra
        apply hcontra
        refine ⟨?_, hskip⟩
        rw [hveq2]
        show h.extver = some (h.extver.getD (-1))
        rw [hv]
        rfl
  · -- SCI units come in non-decreasing version order
    rw [List.pairwise_map]
    apply List.Pairwise.imp_of_mem ?_
      (htpair.filter (fun u => u.extname = some SCI))
    intro a b hma hmb hle
    have ha := List.mem_of_mem_filter hma
    have hb := List.mem_of_mem_filter hmb
    have hasci : a.extname = some SCI := by
      have := List.of_mem_filter hma
      rwa [decide_eq_true_eq] at this
    have hbsci : b.extname = some SCI := by
      have := List.of_mem_filter hmb
      rwa [decide_eq_true_eq] at this
    obtain ⟨va, hva, hra⟩ := wfExt_ver a (hmemt a ha)
    obtain ⟨vb, hvb, hrb⟩ := wfExt_ver b (hmemt b hb)
    have hka : fits_ext_comp_key a = (va, SCI) := by
      rw [key_of_ver a va (hmemt a ha).1 hva (by unfold verOK at hra; omega),
        hasci]
      simp [zAdjName]
    have hkb : fits_ext_comp_key b = (vb, SCI) := by
      rw [key_of_ver b vb (hmemt b hb).1 hvb (by unfold verOK at hrb; omega),
        hbsci]
      simp [zAdjName]
    show (buildUnit E (p :: t) (p.extname, p.extver) a).ver ≤
      (buildUnit E (p :: t) (p.extname, p.extver) b).ver
    have hva2 : (buildUnit E (p :: t) (p.extname, p.extver) a).ver = va := by
      show a.extver.getD (-1) = va
      rw [hva]
      rfl
    have hvb2 : (buildUnit E (p :: t) (p.extname, p.extver) b).ver = vb := by
      show b.extver.getD (-1) = vb
      rw [hvb]
      rfl
    rw [hva2, hvb2]
    exact ver_le_of_extLe a b va vb hka hkb hle
  · -- leftover units come in key order
    rw [List.pairwise_map]
    apply List.Pairwise.imp_of_mem ?_
      ((htpair.filter (fun u => ! isSeen (p :: t) u)).filter
        (fun u => (u.kind = HDUKind.image) && u.data.isSome))
    intro a b hma hmb hle
    have ha := List.mem_of_mem_filter (List.mem_of_mem_filter hma)
    have hb := List.mem_of_mem_filter (List.mem_of_mem_filter hmb)
    obtain ⟨va, hva, hra⟩ := wfExt_ver a (hmemt a ha)
    obtain ⟨vb, hvb, hrb⟩ := wfExt_ver b (hmemt b hb)
    have hka : fits_ext_comp_key a = (va, zAdjName a.extname) :=
      key_of_ver a va (hmemt a ha).1 hva (by unfold verOK at hra; omega)
    have hkb : fits_ext_comp_key b = (vb, zAdjName b.extname) :=
      key_of_ver b vb (hmemt b hb).1 hvb (by unfold verOK at hrb; omega)
    show keyLt ((mkLeftUnit b).ver, zAdjName (mkLeftUnit b).hname)
      ((mkLeftUnit a).ver, zAdjName (mkLeftUnit a).hname) = false
    have hea : ((mkLeftUnit a).ver, zAdjName (mkLeftUnit a).hname) =
        fits_ext_comp_key a := by
      rw [hka]
      show (a.extver.getD (-1), zAdjName a.extname) = _
      rw [hva]
      rfl
    have heb : ((mkLeftUnit b).ver, zAdjName (mkLeftUnit b).hname) =
        fits_ext_comp_key b := by
      rw [hkb]
      show (b.extver.getD (-1), zAdjName b.extname) = _
      rw [hvb]
      rfl
    rw [hea, heb]
    unfold extLe at hle
    rwa [Bool.not_eq_true'] at hle
  · -- container tables are well-formed
    intro x hx
    rcases foldl_appendLeftover_tables _ _ x hx with h | h
    · exact absurd h (List.not_mem_nil x)
    · obtain ⟨u, hu, hkind, rfl⟩ := h
      have hu2 := List.mem_of_mem_filter hu
      have hseen : isSeen (p :: t) u = false := by
        have := List.of_mem_filter hu
        simpa using this
      obtain ⟨n, hn, hne⟩ := wfExt_name u (hmemt u hu2)
      obtain ⟨v, hv, hr⟩ := wfExt_ver u (hmemt u hu2)
      unfold isSeen at hseen
      rw [Bool.or_eq_false_iff] at hseen
      have hnotsci : ¬ u.extname = some SCI := by
        have := hseen.1
        simpa using this
      refine ⟨?_, ?_, ?_, ?_⟩
      · show ¬ u.extname.getD [] = SCI
        rw [hn]
        show ¬ n = SCI
        intro hc
        exact hnotsci (by rw [hn, hc])
      · show ¬ u.extname.getD [] = []
        rw [hn]
        simpa using hne
      · show u.extver.isSome = true
        rw [hv]
        rfl
      · show verOK (u.extver.getD 0)
        rw [hv]
        exact hr

theorem filter_flatMap {α β : Type} (l : List α) (f : α → List β)
    (P : β → Bool) :
    (l.flatMap f).filter P = l.flatMap (fun x => (f x).filter P) := by
  induction l with
  | nil => rfl
  | cons x t ih => rw [List.flatMap_cons, List.flatMap_cons,
      List.filter_append, ih]

theorem flatMap_singleton_eq_map {α β : Type} (l : List α) (f : α → β) :
    l.flatMap (fun x => [f x]) = l.map f := by
  induction l with
  | nil => rfl
  | cons x t ih => rw [List.flatMap_cons, List.map_cons, ih]; rfl

theorem keyLt_to_bot (v : Int) (n : Str) (h : 0 ≤ v) :
    keyLt (v, n) (-1, []) = false := by
  rw [← Bool.not_eq_true, keyLt_iff]
  push_neg
  constructor
  · omega
  · intro hv
    omega

theorem extLe_of_key_le (h1 h2 : HDUm) (v1 v2 : Int) (n : Str)
    (hk1 : fits_ext_comp_key h1 = (v1, n))
    (hk2 : fits_ext_comp_key h2 = (v2, n)) (hle : v1 ≤ v2) :
    extLe h1 h2 = true := by
  unfold extLe
  rw [hk1, hk2, Bool.not_eq_true']
  rw [← Bool.not_eq_true, keyLt_iff]
  push_neg
  constructor
  · omega
  · intro hv
    rw [strLt_irrefl]
    exact Bool.false_ne_true

theorem unitDataHDU_key (u : UnitM) (hver : u.hver = some u.ver)
    (hok : verOK u.ver) :
    fits_ext_comp_key (unitDataHDU u) = (u.ver, zAdjName u.hname) := by
  unfold unitDataHDU verOK at *
  rw [key_of_ver _ u.ver (by simp) hver (by omega)]

/-- The `SCI`-name filter of a well-formed `SCI` unit's extensions keeps
exactly the primary-array extension. -/
theorem filter_sci_unit_sci (E : WcsEnv) (u : UnitM) (hu : wfSciUnit u) :
    (unitHDUs E u).filter (fun x => x.extname = some SCI) =
      [unitDataHDU u] := by
  obtain ⟨hn, hhn, hhv, hok, haux⟩ := hu
  rw [unitHDUs_decomp]
  rw [List.filter_append, List.filter_append, List.filter_append,
    List.filter_append]
  have h1 : ([unitDataHDU u] : List HDUm).filter
      (fun x => x.extname = some SCI) = [unitDataHDU u] := by
    have hd : decide ((unitDataHDU u).extname = some SCI) = true := by
      rw [decide_eq_true_eq]
      exact hhn
    rw [List.filter_singleton, hd, cond_true]
  have h2 : (u.uncertainty.map (fun pl =>
      (⟨HDUKind.image, some VARn, u.hver, some pl⟩ : HDUm))).toList.filter
      (fun x => x.extname = some SCI) = [] := by
    cases u.uncertainty <;> simp [VARn, SCI]
  have h3 : (u.mask.map (fun pl =>
      (⟨HDUKind.image, some DQn, u.hver, some pl⟩ : HDUm))).toList.filter
      (fun x => x.extname = some SCI) = [] := by
    cases u.mask <;> simp [DQn, SCI]
  have h4 : ((wcsKeep E u.wcs).map (fun w =>
      (⟨HDUKind.table, some WCSn, some u.ver,
        some (E.asdfDump w)⟩ : HDUm))).toList.filter
      (fun x => x.extname = some SCI) = [] := by
    cases wcsKeep E u.wcs <;> simp [WCSn, SCI]
  have h5 : (u.other.map auxHDU).filter
      (fun x => x.extname = some SCI) = [] := by
    rw [List.filter_eq_nil_iff]
    intro x hx
    rw [List.mem_map] at hx
    obtain ⟨a, ha, rfl⟩ := hx
    have hwa := haux a ha
    rw [decide_eq_true_eq]
    cases a with
    | img n2 hv2 pl =>
        obtain ⟨hskip, -, -⟩ := hwa
        show ¬ some n2 = some SCI
        intro hc
        exact hskip (by rw [Option.some.inj hc]; simp [skipNames])
    | tbl n2 hv2 pl =>
        obtain ⟨hskip, -, -⟩ := hwa
        show ¬ some n2 = some SCI
        intro hc
        exact hskip (by rw [Option.some.inj hc]; simp [skipNames])
  rw [h1, h2, h3, h4, h5]
  rfl

/-- A leftover unit's single extension does not pass the `SCI` filter. -/
theorem filter_sci_unit_left (E : WcsEnv) (u : UnitM)
    (hhn : u.hname = some u.name) (hns : ¬ u.name = SCI)
    (h1 : u.uncertainty = none) (h2 : u.mask = none) (h3 : u.wcs = none)
    (h4 : u.other = []) :
    (unitHDUs E u).filter (fun x => x.extname = some SCI) = [] := by
  have hd : decide ((unitDataHDU u).extname = some SCI) = false := by
    rw [decide_eq_false_iff_not]
    show ¬ u.hname = some SCI
    rw [hhn]
    intro hc
    exact hns (Option.some.inj hc)
  rw [unitHDUs_left E u h1 h2 h3 h4, List.filter_singleton, hd, cond_false]

theorem mem_unitHDUs (E : WcsEnv) (u : UnitM) (x : HDUm)
    (hx : x ∈ unitHDUs E u) :
    x = unitDataHDU u ∨
    (∃ pl, u.uncertainty = some pl ∧
      x = ⟨HDUKind.image, some VARn, u.hver, some pl⟩) ∨
    (∃ pl, u.mask = some pl ∧
      x = ⟨HDUKind.image, some DQn, u.hver, some pl⟩) ∨
    (∃ w, wcsKeep E u.wcs = some w ∧
      x = ⟨HDUKind.table, some WCSn, some u.ver, some (E.asdfDump w)⟩) ∨
    (∃ a ∈ u.other, x = auxHDU a) := by
  rw [unitHDUs_decomp] at hx
  cases hu : u.uncertainty <;> cases hm : u.mask <;>
    cases hw : wcsKeep E u.wcs <;>
    simp only [hu, hm, hw, Option.map_some', Option.map_none',
      Option.toList_some, Option.toList_none, List.append_nil,
      List.nil_append, List.append_assoc, List.mem_append,
      List.mem_singleton, List.mem_map, List.not_mem_nil, false_or,
      or_false] at hx <;>
    aesop

/-- In a well-formed `SCI` unit's block, every extension is "seen" by the
second read (the data extension is `SCI`; `VAR`/`DQ` and the image
auxiliaries carry the unit's version and a non-skip name; the `WCS`
extension and table auxiliaries are tables, not leftover units). -/
theorem filter_notseen_unit_sci (E : WcsEnv) (SV : List Int) (u : UnitM)
    (hu : wfSciUnit u) (hmem : u.ver ∈ SV) :
    (unitHDUs E u).filter (fun x =>
      (!((x.extname = some SCI) ||
        SV.any (fun v =>
          x.extver = some v ∧ ¬ x.extname.getD [] ∈ skipNames))) &&
      ((x.kind = HDUKind.image) && x.data.isSome)) = [] := by
  obtain ⟨hn, hhn, hhv, hok, haux⟩ := hu
  rw [List.filter_eq_nil_iff]
  intro x hx
  rw [Bool.not_eq_true, Bool.and_eq_false_iff]
  rcases mem_unitHDUs E u x hx with rfl | ⟨pl, hpl, rfl⟩ | ⟨pl, hpl, rfl⟩ |
    ⟨w, hw, rfl⟩ | ⟨a, ha, rfl⟩
  · left
    rw [Bool.not_eq_false', Bool.or_eq_true]
    left
    rw [decide_eq_true_eq]
    exact hhn
  · left
    rw [Bool.not_eq_false', Bool.or_eq_true]
    right
    rw [List.any_eq_true]
    refine ⟨u.ver, hmem, ?_⟩
    rw [decide_eq_true_eq]
    exact ⟨by rw [hhv], by simp [VARn, skipNames, SCI, REFCATn, MDFn]⟩
  · left
    rw [Bool.not_eq_false', Bool.or_eq_true]
    right
    rw [List.any_eq_true]
    refine ⟨u.ver, hmem, ?_⟩
    rw [decide_eq_true_eq]
    exact ⟨by rw [hhv], by simp [DQn, skipNames, SCI, REFCATn, MDFn]⟩
  · right
    simp
  · cases a with
    | img n2 hv2 pl =>
        obtain ⟨hskip, -, hv2e⟩ := haux _ ha
        left
        rw [Bool.not_eq_false', Bool.or_eq_true]
        right
        rw [List.any_eq_true]
        refine ⟨u.ver, hmem, ?_⟩
        rw [decide_eq_true_eq]
        exact ⟨by rw [show (auxHDU (AuxM.img n2 hv2 pl)).extver = hv2 from rfl,
          hv2e], by simpa using hskip⟩
    | tbl n2 hv2 pl =>
        right
        simp [auxHDU]

/-- A leftover unit's single extension is unseen and non-table, so the
second read turns it into a leftover unit again. -/
theorem filter_notseen_unit_left (E : WcsEnv) (SV : List Int) (u : UnitM)
    (hhn : u.hname = some u.name) (hhv : u.hver = some u.ver)
    (hns : ¬ u.name = SCI)
    (h1 : u.uncertainty = none) (h2 : u.mask = none) (h3 : u.wcs = none)
    (h4 : u.other = [])
    (hcond : u.name ∈ skipNames ∨ ¬ u.ver ∈ SV) :
    (unitHDUs E u).filter (fun x =>
      (!((x.extname = some SCI) ||
        SV.any (fun v =>
          x.extver = some v ∧ ¬ x.extname.getD [] ∈ skipNames))) &&
      ((x.kind = HDUKind.image) && x.data.isSome)) = [unitDataHDU u] := by
  rw [unitHDUs_left E u h1 h2 h3 h4, List.filter_singleton]
  have hcnd : ((!((unitDataHDU u).extname = some SCI ||
      SV.any (fun v => (unitDataHDU u).extver = some v ∧
        ¬ (unitDataHDU u).extname.getD [] ∈ skipNames))) &&
      ((unitDataHDU u).kind = HDUKind.image && (unitDataHDU u).data.isSome)) = true := by
    rw [Bool.and_eq_true]
    constructor
    · rw [Bool.not_eq_true', Bool.or_eq_false_iff]
      constructor
      · rw [decide_eq_false_iff_not]
        show ¬ u.hname = some SCI
        rw [hhn]
        intro hc
        exact hns (Option.some.inj hc)
      · rw [List.any_eq_false]
        intro v hv
        rw [Bool.not_eq_true, decide_eq_false_iff_not]
        rintro ⟨hve, hnskip⟩
        have hveq : u.ver = v := by
          have : u.hver = some v := hve
          rw [hhv] at this
          exact Option.some.inj this
        rcases hcond with hc | hc
        · exact hnskip (by
            show u.hname.getD [] ∈ skipNames
            rw [hhn]
            exact hc)
        · exact hc (hveq ▸ hv)
    · simp [unitDataHDU]
  rw [hcnd, cond_true]

theorem flatMap_congr {α β : Type} (l : List α) (f g : α → List β)
    (h : ∀ a ∈ l, f a = g a) : l.flatMap f = l.flatMap g := by
  induction l with
  | nil => rfl
  | cons x t ih =>
      rw [List.flatMap_cons, List.flatMap_cons, h x (List.mem_cons_self x t),
        ih (fun a ha => h a (List.mem_cons_of_mem x ha))]

theorem flatMap_nil_fun {α β : Type} (l : List α) :
    l.flatMap (fun _ => ([] : List β)) = [] := by
  induction l with
  | nil => rfl
  | cons x t ih =>
      rw [List.flatMap_cons, ih]
      rfl

theorem recogP_of_fields (x : HDUm) (v : Int) (n : Str)
    (hv : x.extver = some v) (hn : x.extname = some n) (h1 : 1 ≤ v) :
    recogP x = true := by
  simp only [recogP, hv, hn, Option.isSome_some, Bool.and_true]
  rw [decide_eq_true_eq]
  omega

/-- Every extension the Writer emits after the primary is recognized by
the second read's pass 1, is not a primary HDU, and carries a positive
`EXTVER`. -/
theorem written_ext_fields (E : WcsEnv) (SV : List Int)
    (sciL leftL : List UnitM) (tabs : List (Str × Option Int × List Int))
    (hsci : ∀ u ∈ sciL, wfSciUnit u)
    (hleft : ∀ u ∈ leftL, wfLeftUnit SV u)
    (htab : ∀ t ∈ tabs, wfTable t)
    (x : HDUm)
    (hx : x ∈ sciL.flatMap (unitHDUs E) ++ leftL.flatMap (unitHDUs E) ++
      (tablesSorted tabs).map tableHDU) :
    recogP x = true ∧ ¬ x.kind = HDUKind.primary ∧
      ∃ v, x.extver = some v ∧ 1 ≤ v := by
  rcases List.mem_append.mp hx with hx | hx
  · rcases List.mem_append.mp hx with hx | hx
    · rw [List.mem_flatMap] at hx
      obtain ⟨u, hu, hxu⟩ := hx
      obtain ⟨hn, hhn, hhv, hok, haux⟩ := hsci u hu
      have hok' : 1 ≤ u.ver ∧ u.ver < 2 ^ 32 - 1 := hok
      rcases mem_unitHDUs E u x hxu with rfl | ⟨pl, hpl, rfl⟩ |
        ⟨pl, hpl, rfl⟩ | ⟨w, hwk, rfl⟩ | ⟨a, ha, rfl⟩
      · have hv : (unitDataHDU u).extver = some u.ver := by
          show u.hver = some u.ver
          exact hhv
        have hnm : (unitDataHDU u).extname = some SCI := by
          show u.hname = some SCI
          exact hhn
        exact ⟨recogP_of_fields _ u.ver SCI hv hnm hok'.1,
          by simp [unitDataHDU], u.ver, hv, hok'.1⟩
      · have hv : (⟨HDUKind.image, some VARn, u.hver, some pl⟩ :
            HDUm).extver = some u.ver := by
          show u.hver = some u.ver
          exact hhv
        exact ⟨recogP_of_fields _ u.ver VARn hv rfl hok'.1, by simp,
          u.ver, hv, hok'.1⟩
      · have hv : (⟨HDUKind.image, some DQn, u.hver, some pl⟩ :
            HDUm).extver = some u.ver := by
          show u.hver = some u.ver
          exact hhv
        exact ⟨recogP_of_fields _ u.ver DQn hv rfl hok'.1, by simp,
          u.ver, hv, hok'.1⟩
      · exact ⟨recogP_of_fields _ u.ver WCSn rfl rfl hok'.1, by simp,
          u.ver, rfl, hok'.1⟩
      · cases a with
        | img n2 hv2 pl =>
            obtain ⟨hskip, hne2, hv2e⟩ := haux _ ha
            have hv : (auxHDU (AuxM.img n2 hv2 pl)).extver = some u.ver := by
              show hv2 = some u.ver
              exact hv2e
            exact ⟨recogP_of_fields _ u.ver n2 hv rfl hok'.1,
              by simp [auxHDU], u.ver, hv, hok'.1⟩
        | tbl n2 hv2 pl =>
            obtain ⟨hskip, hne2, hv2e⟩ := haux _ ha
            have hv : (auxHDU (AuxM.tbl n2 hv2 pl)).extver = some u.ver := by
              show hv2 = some u.ver
              exact hv2e
            exact ⟨recogP_of_fields _ u.ver n2 hv rfl hok'.1,
              by simp [auxHDU], u.ver, hv, hok'.1⟩
    · rw [List.mem_flatMap] at hx
      obtain ⟨u, hu, hxu⟩ := hx
      obtain ⟨hns, hne, hhn, hhv, hok, h1, h2, h3, h4, hcond⟩ := hleft u hu
      have hok' : 1 ≤ u.ver ∧ u.ver < 2 ^ 32 - 1 := hok
      rw [unitHDUs_left E u h1 h2 h3 h4, List.mem_singleton] at hxu
      subst hxu
      have hv : (unitDataHDU u).extver = some u.ver := by
        show u.hver = some u.ver
        exact hhv
      have hnm : (unitDataHDU u).extname = some u.name := by
        show u.hname = some u.name
        exact hhn
      exact ⟨recogP_of_fields _ u.ver u.name hv hnm hok'.1,
        by simp [unitDataHDU], u.ver, hv, hok'.1⟩
  · rw [List.mem_map] at hx
    obtain ⟨t, ht, rfl⟩ := hx
    have htm : t ∈ tabs := by
      have hp := List.mergeSort_perm tabs (fun a b => ! strLt b.1 a.1)
      exact hp.mem_iff.mp (by simpa [tablesSorted] using ht)
    obtain ⟨hts, htn, htv, htok⟩ := htab t htm
    obtain ⟨v, hv⟩ := Option.isSome_iff_exists.mp htv
    rw [hv, Option.getD_some] at htok
    have htok' : 1 ≤ v ∧ v < 2 ^ 32 - 1 := htok
    have hvv : (tableHDU t).extver = some v := by
      show t.2.1 = some v
      exact hv
    exact ⟨recogP_of_fields _ v t.1 hvv rfl htok'.1, by simp [tableHDU],
      v, hvv, htok'.1⟩

/-- The `SCI`-name filter of the written extensions (beyond the primary)
is exactly the list of the `SCI` units' primary-array extensions. -/
theorem filter_P_written (E : WcsEnv) (SV : List Int)
    (sciL leftL : List UnitM) (tabs : List (Str × Option Int × List Int))
    (hsci : ∀ u ∈ sciL, wfSciUnit u)
    (hleft : ∀ u ∈ leftL, wfLeftUnit SV u)
    (htab : ∀ t ∈ tabs, wfTable t) :
    (sciL.flatMap (unitHDUs E) ++ leftL.flatMap (unitHDUs E) ++
      (tablesSorted tabs).map tableHDU).filter
      (fun x => x.extname = some SCI) = sciL.map unitDataHDU := by
  rw [List.filter_append, List.filter_append, filter_flatMap,
    filter_flatMap]
  have hA : sciL.flatMap (fun u => (unitHDUs E u).filter
      (fun x => x.extname = some SCI)) = sciL.map unitDataHDU := by
    rw [flatMap_congr sciL _ (fun u => [unitDataHDU u])
      (fun u hu => filter_sci_unit_sci E u (hsci u hu)),
      flatMap_singleton_eq_map]
  have hB : leftL.flatMap (fun u => (unitHDUs E u).filter
      (fun x => x.extname = some SCI)) = [] := by
    rw [flatMap_congr leftL _ (fun _ => [])
      (fun u hu => by
        obtain ⟨hns, hne, hhn, hhv, hok, h1, h2, h3, h4, hcond⟩ :=
          hleft u hu
        exact filter_sci_unit_left E u hhn hns h1 h2 h3 h4),
      flatMap_nil_fun]
  have hC : ((tablesSorted tabs).map tableHDU).filter
      (fun x => x.extname = some SCI) = [] := by
    rw [List.filter_eq_nil_iff]
    intro x hxm
    rw [List.mem_map] at hxm
    obtain ⟨t, ht, rfl⟩ := hxm
    have htm : t ∈ tabs := by
      have hp := List.mergeSort_perm tabs (fun a b => ! strLt b.1 a.1)
      exact hp.mem_iff.mp (by simpa [tablesSorted] using ht)
    obtain ⟨hts, -, -, -⟩ := htab t htm
    simp only [decide_eq_true_eq]
    show ¬ some t.1 = some SCI
    intro hc
    exact hts (Option.some.inj hc)
  rw [hA, hB, hC, List.append_nil, List.append_nil]

/-- The "unseen and not a table" filter of the written extensions is
exactly the list of the leftover units' extensions. -/
theorem filter_R_written (E : WcsEnv) (SV : List Int)
    (sciL leftL : List UnitM) (tabs : List (Str × Option Int × List Int))
    (hsci : ∀ u ∈ sciL, wfSciUnit u) (hmemSV : ∀ u ∈ sciL, u.ver ∈ SV)
    (hleft : ∀ u ∈ leftL, wfLeftUnit SV u) :
    (sciL.flatMap (unitHDUs E) ++ leftL.flatMap (unitHDUs E) ++
      (tablesSorted tabs).map tableHDU).filter
      (fun x => (!((x.extname = some SCI) ||
        SV.any (fun v =>
          x.extver = some v ∧ ¬ x.extname.getD [] ∈ skipNames))) &&
      ((x.kind = HDUKind.image) && x.data.isSome)) = leftL.map unitDataHDU := by
  rw [List.filter_append, List.filter_append, filter_flatMap,
    filter_flatMap]
  have hA : sciL.flatMap (fun u => (unitHDUs E u).filter
      (fun x => (!((x.extname = some SCI) ||
        SV.any (fun v =>
          x.extver = some v ∧ ¬ x.extname.getD [] ∈ skipNames))) &&
      ((x.kind = HDUKind.image) && x.data.isSome))) = [] := by
    rw [flatMap_congr sciL _ (fun _ => [])
      (fun u hu => filter_notseen_unit_sci E SV u (hsci u hu)
        (hmemSV u hu)),
      flatMap_nil_fun]
  have hB : leftL.flatMap (fun u => (unitHDUs E u).filter
      (fun x => (!((x.extname = some SCI) ||
        SV.any (fun v =>
          x.extver = some v ∧ ¬ x.extname.getD [] ∈ skipNames))) &&
      ((x.kind = HDUKind.image) && x.data.isSome))) = leftL.map unitDataHDU := by
    rw [flatMap_congr leftL _ (fun u => [unitDataHDU u])
      (fun u hu => by
        obtain ⟨hns, hne, hhn, hhv, hok, h1, h2, h3, h4, hcond⟩ :=
          hleft u hu
        exact filter_notseen_unit_left E SV u hhn hhv hns h1 h2 h3 h4
          hcond),
      flatMap_singleton_eq_map]
  have hC : ((tablesSorted tabs).map tableHDU).filter
      (fun x => (!((x.extname = some SCI) ||
        SV.any (fun v =>
          x.extver = some v ∧ ¬ x.extname.getD [] ∈ skipNames))) &&
      ((x.kind = HDUKind.image) && x.data.isSome)) = [] := by
    rw [List.filter_eq_nil_iff]
    intro x hxm
    rw [List.mem_map] at hxm
    obtain ⟨t, ht, rfl⟩ := hxm
    simp [tableHDU]
  rw [hA, hB, hC, List.nil_append, List.append_nil]

/-- The Writer's `SCI` blocks yield a sorted run: non-decreasing versions
with the constant adjusted name. -/
theorem pairwise_extLe_sciMap (sciL : List UnitM)
    (hsci : ∀ u ∈ sciL, wfSciUnit u)
    (hsp : sciL.Pairwise (fun a b => a.ver ≤ b.ver)) :
    (sciL.map unitDataHDU).Pairwise (fun a b => extLe a b = true) := by
  rw [List.pairwise_map]
  refine hsp.imp_of_mem ?_
  intro a b ha hb hle
  obtain ⟨hna, hhna, hhva, hoka, -⟩ := hsci a ha
  obtain ⟨hnb, hhnb, hhvb, hokb, -⟩ := hsci b hb
  refine extLe_of_key_le _ _ a.ver b.ver (zAdjName (some SCI)) ?_ ?_ hle
  · rw [unitDataHDU_key a hhva hoka, hhna]
  · rw [unitDataHDU_key b hhvb hokb, hhnb]

/-- The Writer's leftover blocks yield a sorted run: their comparison
keys never decrease. -/
theorem pairwise_extLe_leftMap (SV : List Int) (leftL : List UnitM)
    (hleft : ∀ u ∈ leftL, wfLeftUnit SV u)
    (hlp : leftL.Pairwise (fun a b =>
      keyLt (b.ver, zAdjName b.hname) (a.ver, zAdjName a.hname) = false)) :
    (leftL.map unitDataHDU).Pairwise (fun a b => extLe a b = true) := by
  rw [List.pairwise_map]
  refine hlp.imp_of_mem ?_
  intro a b ha hb hk
  obtain ⟨-, -, -, hhva, hoka, -, -, -, -, -⟩ := hleft a ha
  obtain ⟨-, -, -, hhvb, hokb, -, -, -, -, -⟩ := hleft b hb
  unfold extLe
  rw [unitDataHDU_key a hhva hoka, unitDataHDU_key b hhvb hokb, hk]
  rfl

/-- Part B of the round trip: writing a provider that satisfies the
reader's invariant and reading the result back preserves the ordered
`(name, version, data)` signature of the units. -/
theorem write_read_sig (E2 E3 : WcsEnv) (mm2 : Bool) (p : ProviderM)
    (hInv : Inv p) (p2 : ProviderM)
    (h2 : read_fits E2 mm2 (write_fits E3 p) = Except.ok p2) :
    unitSig p2 = unitSig p := by
  obtain ⟨hpn, hpv, sciL, leftL, hnd, hsci, hleft, hsp, hlp, htab⟩ := hInv
  obtain ⟨L, hL⟩ : ∃ L : List HDUm,
      L = sciL.flatMap (unitHDUs E3) ++ leftL.flatMap (unitHDUs E3) ++
        (tablesSorted p.tables).map tableHDU := ⟨_, rfl⟩
  obtain ⟨prim, hprim⟩ : ∃ x : HDUm,
      x = ⟨HDUKind.primary, none, none, none⟩ := ⟨_, rfl⟩
  have hw : write_fits E3 p = prim :: L := by
    unfold write_fits
    rw [foldl_append_flatMap, hpn, hpv, hnd, List.flatMap_append, hprim,
      hL]
    simp
  have hmemSV : ∀ u ∈ sciL, u.ver ∈ sciL.map (fun x => x.ver) :=
    fun u hu => List.mem_map_of_mem _ hu
  have hfields : ∀ x ∈ L, recogP x = true ∧ ¬ x.kind = HDUKind.primary ∧
      ∃ v, x.extver = some v ∧ 1 ≤ v := by
    intro x hx
    rw [hL] at hx
    exact written_ext_fields E3 (sciL.map (fun x => x.ver)) sciL leftL
      p.tables hsci hleft htab x hx
  obtain ⟨t2, hmt2, ht2perm, ht2pair⟩ := mergeSort_cons_of_min prim L
    (fun x hx => by
      obtain ⟨-, hnp, v, hv, h1⟩ := hfields x hx
      rw [hprim, key_primary _ rfl, key_of_ver x v hnp hv (by omega)]
      exact keyLt_bot v _ (by omega))
    (fun x hx heq => by
      obtain ⟨-, hnp, -⟩ := hfields x hx
      rw [heq, hprim] at hnp
      exact hnp rfl)
  have hprep : _prepare_hdulist (prim :: L) = prim :: t2 :=
    (prepare_of_recognized prim L (by rw [hprim]) (by rw [hprim])
      (fun u hu => (hfields u hu).1)).trans hmt2
  have hPL : L.filter (fun u => u.extname = some SCI) =
      sciL.map unitDataHDU := by
    rw [hL]
    exact filter_P_written E3 (sciL.map (fun x => x.ver)) sciL leftL
      p.tables hsci hleft htab
  have hPprim : decide (prim.extname = some SCI) = false := by
    rw [hprim]
    decide
  have hfP : t2.filter (fun u => u.extname = some SCI) =
      sciL.map unitDataHDU := by
    have hpair : ((prim :: L).filter
        (fun u => u.extname = some SCI)).Pairwise
        (fun a b => extLe a b = true) := by
      have hstep : (prim :: L).filter (fun u => u.extname = some SCI) =
          L.filter (fun u => u.extname = some SCI) := by
        simp only [List.filter_cons, hPprim]
        exact if_neg Bool.false_ne_true
      rw [hstep, hPL]
      exact pairwise_extLe_sciMap sciL hsci hsp
    have h1 := filter_mergeSort_eq (fun u => decide (u.extname = some SCI))
      (prim :: L) hpair
    rw [hmt2] at h1
    exact (filter_cons_cancel _ prim t2 L h1).trans hPL
  have hSV : sciVers (prim :: t2) = sciL.map (fun x => x.ver) := by
    unfold sciVers
    rw [List.drop_one, List.tail_cons, hfP, List.map_map]
    refine List.map_congr_left ?_
    intro u hu
    obtain ⟨-, -, hhv, -, -⟩ := hsci u hu
    show u.hver.getD (-1) = u.ver
    rw [hhv]
    rfl
  have hRL : L.filter (fun x => (!((x.extname = some SCI) ||
      (sciL.map (fun x => x.ver)).any (fun v =>
        x.extver = some v ∧ ¬ x.extname.getD [] ∈ skipNames))) &&
      ((x.kind = HDUKind.image) && x.data.isSome)) = leftL.map unitDataHDU := by
    rw [hL]
    exact filter_R_written E3 (sciL.map (fun x => x.ver)) sciL leftL
      p.tables hsci hmemSV hleft
  have hRprim : ((!((prim.extname = some SCI) ||
      (sciL.map (fun x => x.ver)).any (fun v =>
        prim.extver = some v ∧ ¬ prim.extname.getD [] ∈ skipNames))) &&
      ((prim.kind = HDUKind.image) && prim.data.isSome)) = false := by
    rw [hprim]
    simp
  have hfR : t2.filter (fun x => (!((x.extname = some SCI) ||
      (sciL.map (fun x => x.ver)).any (fun v =>
        x.extver = some v ∧ ¬ x.extname.getD [] ∈ skipNames))) &&
      ((x.kind = HDUKind.image) && x.data.isSome)) = leftL.map unitDataHDU := by
    have hpair : ((prim :: L).filter (fun x => (!((x.extname = some SCI) ||
        (sciL.map (fun x => x.ver)).any (fun v =>
          x.extver = some v ∧ ¬ x.extname.getD [] ∈ skipNames))) &&
        ((x.kind = HDUKind.image) && x.data.isSome))).Pairwise
        (fun a b => extLe a b = true) := by
      have hstep : (prim :: L).filter (fun x => (!((x.extname = some SCI) ||
          (sciL.map (fun x => x.ver)).any (fun v =>
            x.extver = some v ∧ ¬ x.extname.getD [] ∈ skipNames))) &&
          ((x.kind = HDUKind.image) && x.data.isSome)) =
          L.filter (fun x => (!((x.extname = some SCI) ||
          (sciL.map (fun x => x.ver)).any (fun v =>
            x.extver = some v ∧ ¬ x.extname.getD [] ∈ skipNames))) &&
          ((x.kind = HDUKind.image) && x.data.isSome)) := by
        simp only [List.filter_cons, hRprim]
        exact if_neg Bool.false_ne_true
      rw [hstep, hRL]
      exact pairwise_extLe_leftMap (sciL.map (fun x => x.ver)) leftL
        hleft hlp
    have h1 := filter_mergeSort_eq (fun x => (!(decide (x.extname = some SCI) ||
        (sciL.map (fun x => x.ver)).any (fun v =>
          decide (x.extver = some v ∧ ¬ x.extname.getD [] ∈ skipNames)))) &&
        (decide (x.kind = HDUKind.image) && x.data.isSome)) (prim :: L) hpair
    rw [hmt2] at h1
    exact (filter_cons_cancel _ prim t2 L h1).trans hRL
  have hcg : ∀ a ∈ t2,
      ((((a.kind = HDUKind.image) && a.data.isSome) : Bool) &&
        (!(isSeen (prim :: t2) a))) = ((!((a.extname = some SCI) ||
      (sciL.map (fun x => x.ver)).any (fun v =>
        a.extver = some v ∧ ¬ a.extname.getD [] ∈ skipNames))) &&
      ((a.kind = HDUKind.image) && a.data.isSome)) := by
    intro a ha
    rw [Bool.and_comm]
    simp only [isSeen, hSV]
  have hfinalL : (t2.filter (fun u => ! isSeen (prim :: t2) u)).filter
      (fun u => (u.kind = HDUKind.image) && u.data.isSome) =
        leftL.map unitDataHDU := by
    rw [List.filter_filter]
    exact (List.filter_congr hcg).trans hfR
  have hp2 : p2 =
      ((t2.filter (fun u => ! isSeen (prim :: t2) u)).foldl appendLeftover
        ⟨prim.extname, prim.extver,
          (t2.filter (fun u => u.extname = some SCI)).map
            (buildUnit E2 (prim :: t2) (prim.extname, prim.extver)),
          []⟩) := by
    rw [hw, read_fits_eq E2 mm2 (prim :: L) prim t2 hprep] at h2
    by_cases hc : (mm2 = false ∧
        ¬ (t2.filter (fun u => u.extname = some SCI)) = [])
    · rw [if_pos hc] at h2
      exact absurd h2 (by simp)
    · rw [if_neg hc] at h2
      exact (Except.ok.inj h2).symm
  rw [hp2]
  simp only [unitSig, foldl_appendLeftover_nddata]
  rw [hfP, hfinalL, hnd]
  simp only [List.map_append, List.map_map]
  congr 1
  · refine List.map_congr_left ?_
    intro u hu
    obtain ⟨hn, hhn, hhv, hok, -⟩ := hsci u hu
    show (SCI, u.hver.getD (-1), u.data) = (u.name, u.ver, u.data)
    rw [hn, hhv, Option.getD_some]
  · refine List.map_congr_left ?_
    intro u hu
    obtain ⟨-, -, hhn, hhv, -, -, -, -, -, -⟩ := hleft u hu
    show (u.hname.getD [], u.hver.getD (-1), u.data) =
      (u.name, u.ver, u.data)
    rw [hhn, hhv, Option.getD_some, Option.getD_some]

theorem prep_wfRoundC : _prepare_hdulist wfRoundC = wfRoundC :=
  (prepare_of_recognized ⟨HDUKind.primary, none, none, none⟩
    [⟨HDUKind.image, some SCI, some 1, some [5]⟩,
     ⟨HDUKind.image, some VARn, some 1, some [2]⟩,
     ⟨HDUKind.image, some SCI, some 2, some [9]⟩] rfl rfl
    (by decide)).trans (List.mergeSort_of_sorted (by decide))

/-- The memmapped read of `wfRoundC`: two `SCI` units, the first with
its `VAR` plane attached. -/
theorem read_wfRoundC :
    read_fits envTriv true wfRoundC = Except.ok roundP := by
  rw [read_fits_eq envTriv true wfRoundC ⟨HDUKind.primary, none, none, none⟩
    [⟨HDUKind.image, some SCI, some 1, some [5]⟩,
     ⟨HDUKind.image, some VARn, some 1, some [2]⟩,
     ⟨HDUKind.image, some SCI, some 2, some [9]⟩] prep_wfRoundC]
  rw [if_neg (by rintro ⟨hc, -⟩; cases hc)]
  exact congrArg Except.ok (by decide)

/-- Writing `roundP` reproduces the container `wfRoundC`. -/
theorem write_roundP : write_fits envTriv roundP = wfRoundC := by
  unfold write_fits roundP
  simp only [tablesSorted, List.mergeSort_nil, List.map_nil,
    List.append_nil]
  decide

/-- The eager read of `wfRoundC` raises `NameError` at fits.py line 762:
the units loop evaluates the undefined name `NDData` (its import at line
20 is commented out) for the first `SCI` extension. -/
theorem reread_wfRoundC_eager :
    read_fits envTriv false wfRoundC = Except.error NameErrorStr := by
  rw [read_fits_eq envTriv false wfRoundC ⟨HDUKind.primary, none, none, none⟩
    [⟨HDUKind.image, some SCI, some 1, some [5]⟩,
     ⟨HDUKind.image, some VARn, some 1, some [2]⟩,
     ⟨HDUKind.image, some SCI, some 2, some [9]⟩] prep_wfRoundC]
  rw [if_pos ⟨rfl, by decide⟩]

/-- C1 counterexample: the round trip does not hold for every container
read by the Reader into a Provider.  The well-formed container
`wfRoundC` is read (memmapped) into the Provider `roundP`, but reading
the written container again through the Reader's eager branch raises
`NameError` at fits.py line 762 — `isinstance(nd, NDData)` evaluates the
never-imported name `NDData` (line 20 is commented out) — so no
resulting Provider exists, let alone one with the same units: the eager
materialization mode, which §4.4 presents as a supported branch, cannot
complete any round trip that materializes a unit. -/
theorem claim_C1_counterexample :
    read_fits envTriv true wfRoundC = Except.ok roundP ∧
    read_fits envTriv false (write_fits envTriv roundP) =
      Except.error NameErrorStr :=
  ⟨read_wfRoundC, by rw [write_roundP]; exact reread_wfRoundC_eager⟩

/-- C1 (amended): for every well-formed container — a metadata-only
primary HDU followed by extensions that each carry a nonempty `EXTNAME`
and an `EXTVER` in the data model's positive range, with no table named
`SCI` — whenever the Reader reads it into a provider and reads the
written container again into a provider (in particular with memmapped
reads; the eager branch raises `NameError` whenever a `SCI` unit must be
materialized), the resulting provider has the same ordered sequence of
`(name, version)` units and identical primary-array bytes. -/
theorem claim_C1_amended (E1 E2 E3 : WcsEnv) (mm1 mm2 : Bool)
    (hs : List HDUm) (hwf : wfContainer hs) (p p2 : ProviderM)
    (h1 : read_fits E1 mm1 hs = Except.ok p)
    (h2 : read_fits E2 mm2 (write_fits E3 p) = Except.ok p2) :
    unitSig p2 = unitSig p :=
  write_read_sig E2 E3 mm2 p (read_wf_Inv E1 mm1 hs hwf p h1) p2 h2

theorem wf_wfRoundC : wfContainer wfRoundC := by
  refine ⟨rfl, rfl, rfl, rfl, ?_⟩
  intro u hu
  simp only [List.mem_cons, List.not_mem_nil, or_false] at hu
  rcases hu with rfl | rfl | rfl
  · exact ⟨by decide, rfl, by decide, rfl, ⟨by decide, by decide⟩, by decide⟩
  · exact ⟨by decide, rfl, by decide, rfl, ⟨by decide, by decide⟩, by decide⟩
  · exact ⟨by decide, rfl, by decide, rfl, ⟨by decide, by decide⟩, by decide⟩

/-- Witness for the amended C1 at the concrete well-formed container
`wfRoundC` with both reads memmapped: both reads succeed and the unit
signatures agree. -/
theorem claim_C1_amended_witness :
    wfContainer wfRoundC ∧
    read_fits envTriv true wfRoundC = Except.ok roundP ∧
    read_fits envTriv true (write_fits envTriv roundP) =
      Except.ok roundP ∧
    unitSig roundP = unitSig roundP :=
  ⟨wf_wfRoundC, read_wfRoundC,
    by rw [write_roundP]; exact read_wfRoundC,
    claim_C1_amended envTriv envTriv envTriv true true wfRoundC wf_wfRoundC
      roundP roundP read_wfRoundC
      (by rw [write_roundP]; exact read_wfRoundC)⟩

end AstrodataFits
